import Mathlib

/-!
Parallel Unix pipeline (`spamchecker.go`): a shallow embedding.

The stages of `spamchecker.go` exchange values of type `interface{}` over
channels.  A finite stream read from a channel until it is closed is a list;
the values a stage writes to `out` are a list in the order of the writes.
Where the order of concurrent tasks matters it is an explicit argument
(a schedule), and the theorems quantify over it.
-/

namespace Spamchecker

/-! ## Data model -/

/-- Modelled from the spec: the declaration of `MsgID` is not part of
`spamchecker.go`.  The code converts the literal `0` to it (`MsgID(0)`) and
compares two of them with `cmp.Compare`; the spec calls it an opaque ordinal.
It is an unsigned integer here; no arithmetic is done on it. -/
abbrev MsgID := Nat

/-- Modelled from the spec: the declaration of `MsgData` is not part of
`spamchecker.go`.  The positional literal `MsgData{message, hasSpam}` and the
selectors `msg.ID`, `msg.HasSpam` fix its two fields and their order. -/
structure MsgData where
  ID : MsgID
  HasSpam : Bool
deriving DecidableEq, Repr

/-- Modelled from the spec: the declaration of `User` is not part of
`spamchecker.go`.  The pipeline reads the field `Email` only; `Rest` stands
for whatever other fields the record has. -/
structure User where
  Email : String
  Rest : Nat
deriving DecidableEq, Repr

/-- The zero value `User{}`. -/
instance : Inhabited User := ⟨⟨"", 0⟩⟩

/-- A value of type `interface{}` travelling over a channel, by dynamic type.
`other` stands for a value of any type no stage asserts. -/
inductive Item where
  | str (s : String)
  | user (u : User)
  | msgID (m : MsgID)
  | msgData (d : MsgData)
  | other (tag : Nat)
deriving DecidableEq, Repr

/-- The type assertion `email.(string)`. -/
def Item.asString : Item → Option String
  | Item.str s => some s
  | _ => none

/-- The type assertion `user.(User)`. -/
def Item.asUser : Item → Option User
  | Item.user u => some u
  | _ => none

/-- The type assertion `msgID.(MsgID)`. -/
def Item.asMsgID : Item → Option MsgID
  | Item.msgID m => some m
  | _ => none

/-- The type assertion `msgData.(MsgData)`. -/
def Item.asMsgData : Item → Option MsgData
  | Item.msgData d => some d
  | _ => none

/-- What a stage does on its two channels, in program order. -/
inductive Event where
  | recv (x : Item)
  | send (x : Item)
deriving DecidableEq, Repr

/-- The values written to `out` in a run, in the order of the writes. -/
def sent : List Event → List Item
  | [] => []
  | Event.send x :: es => x :: sent es
  | Event.recv _ :: es => sent es

/-! ## CombineResults -/

/-- The function `cmp.Compare` on `MsgID`. -/
def cmpCompare (x y : MsgID) : Int :=
  if x < y then -1 else if x > y then 1 else 0

/-- The comparator handed to `slices.SortFunc` in `CombineResults`. -/
def cmpMsgData (a b : MsgData) : Int :=
  if a.HasSpam && !b.HasSpam then -1
  else if !a.HasSpam && b.HasSpam then 1
  else cmpCompare a.ID b.ID

/-- The line `fmt.Sprintf("%t %v", msg.HasSpam, msg.ID)`. -/
def formatMsg (msg : MsgData) : String :=
  toString msg.HasSpam ++ " " ++ toString msg.ID

/-- What `slices.SortFunc` asks of its comparator: a strict weak ordering,
negative for less, positive for greater, zero for equivalent. -/
structure StrictWeakOrdering {α : Type} (cmp : α → α → Int) : Prop where
  irrefl : ∀ a, cmp a a = 0
  flip : ∀ a b, cmp a b < 0 ↔ 0 < cmp b a
  trans : ∀ a b c, cmp a b < 0 → cmp b c < 0 → cmp a c < 0
  equiv_trans : ∀ a b c, cmp a b = 0 → cmp b c = 0 → cmp a c = 0

/-- What `slices.SortFunc` promises (the standard library is not part of the
repository): the slice is rearranged in place, and when the comparator is a
strict weak ordering the result is ascending, that is, no element compares
less than one before it.  Stability is not promised. -/
def SortContract (sortFunc : (MsgData → MsgData → Int) → List MsgData → List MsgData) : Prop :=
  ∀ (cmp : MsgData → MsgData → Int) (xs : List MsgData),
    (sortFunc cmp xs).Perm xs ∧
    (StrictWeakOrdering cmp → (sortFunc cmp xs).Pairwise (fun a b => ¬ cmp b a < 0))

/-- One sorting function that meets `SortContract`: insertion sort. -/
def insertionSortFunc (cmp : MsgData → MsgData → Int) (xs : List MsgData) : List MsgData :=
  xs.insertionSort (fun a b => ¬ cmp b a < 0)

/-- Another one, that places equivalent elements in the opposite order. -/
def reverseInsertionSortFunc (cmp : MsgData → MsgData → Int) (xs : List MsgData) : List MsgData :=
  xs.reverse.insertionSort (fun a b => ¬ cmp b a < 0)

/-- The first loop of `CombineResults`: `for msgData := range in`, with the
slice `messages` and the events so far as loop state. -/
def CombineResults.collect : List Item → List MsgData × List Event → List MsgData × List Event
  | [], st => st
  | msgData :: rest, (messages, trace) =>
    match msgData.asMsgData with
    | none => CombineResults.collect rest (messages, trace ++ [Event.recv msgData])
    | some messageStruct =>
      CombineResults.collect rest (messages ++ [messageStruct], trace ++ [Event.recv msgData])

/-- The second loop of `CombineResults`: `for _, msg := range messages`. -/
def CombineResults.emit : List MsgData → List Event → List Event
  | [], trace => trace
  | msg :: rest, trace =>
    CombineResults.emit rest (trace ++ [Event.send (Item.str (formatMsg msg))])

/-- The run of `CombineResults` on the stream `input`: what it reads and
writes, in program order. -/
def CombineResults.run (sortFunc : (MsgData → MsgData → Int) → List MsgData → List MsgData)
    (input : List Item) : List Event :=
  let st := CombineResults.collect input ([], [])
  CombineResults.emit (sortFunc cmpMsgData st.1) st.2

/-- The values `CombineResults` writes to `out` on the stream `input`. -/
def CombineResults (sortFunc : (MsgData → MsgData → Int) → List MsgData → List MsgData)
    (input : List Item) : List Item :=
  sent (CombineResults.run sortFunc input)

/-- The report line as the spec words it, `"<bool> <message-id>"`: the flag
as `true` or `false`, one blank, the identifier in decimal digits.  Written
from the spec, not from `formatMsg`, to compare the two. -/
def reportLine (d : MsgData) : String :=
  (if d.HasSpam then "true" else "false") ++ " " ++ String.mk (Nat.toDigits 10 d.ID)

/-- The lines the spec asks for on a stream: one report line for every item
that is a `MsgData`, in arrival order, and nothing for an item of another
type.  Written from the spec, by the dynamic type of each item. -/
def expectedLines : List Item → List Item
  | [] => []
  | Item.msgData d :: rest => Item.str (reportLine d) :: expectedLines rest
  | Item.str _ :: rest => expectedLines rest
  | Item.user _ :: rest => expectedLines rest
  | Item.msgID _ :: rest => expectedLines rest
  | Item.other _ :: rest => expectedLines rest

/-! ## SelectUsers -/

/-- The closure `getUserByEmail` of `SelectUsers`; `GetUser` is the external
lookup. -/
def SelectUsers.getUserByEmail (GetUser : String → User) (email : Item) : Except String User :=
  match email.asString with
  | none => Except.error "SelectUsers: failed to convert to type string"
  | some emailString => Except.ok (GetUser emailString)

/-- What the tasks of `SelectUsers` share: the keys of the map `uniqueUsers`
and the values written to `out`, in the order of the writes. -/
structure SelectUsers.State where
  uniqueUsers : List String
  out : List Item
deriving Repr

/-- The closure `passUniqueUsers` of `SelectUsers`, one task.  The part under
`mu.Lock()` runs without interleaving, so a task is one state change. -/
def SelectUsers.passUniqueUsers (GetUser : String → User) (st : SelectUsers.State)
    (email : Item) : SelectUsers.State :=
  match SelectUsers.getUserByEmail GetUser email with
  | Except.error _ => st
  | Except.ok user =>
    if user.Email ∈ st.uniqueUsers then st
    else ⟨user.Email :: st.uniqueUsers, st.out ++ [Item.user user]⟩

/-- The values `SelectUsers` writes to `out` when its tasks, one per input
item, pass the locked section in the order `order`. -/
def SelectUsers (GetUser : String → User) (order : List Item) : List Item :=
  (order.foldl (SelectUsers.passUniqueUsers GetUser) ⟨[], []⟩).out

/-- The emails the input items resolve to: `GetUser(e).Email` for every string
`e` of the stream. -/
def resolvedEmails (GetUser : String → User) (input : List Item) : List String :=
  (input.filterMap Item.asString).map (fun e => (GetUser e).Email)

/-- The `Email` fields of the users in a list of items. -/
def emailsOf (items : List Item) : List String :=
  (items.filterMap Item.asUser).map User.Email

/-- What holds of the shared state of `SelectUsers` between two tasks: only
users were written, their emails are pairwise distinct, and they are the keys
of `uniqueUsers`. -/
def SelectUsers.Inv (st : SelectUsers.State) : Prop :=
  (∀ x ∈ st.out, ∃ u, x = Item.user u) ∧
  (emailsOf st.out).Nodup ∧
  (∀ e, e ∈ emailsOf st.out ↔ e ∈ st.uniqueUsers)

/-! ## SelectMessages -/

/-- A slice header: the backing array it points to, its length and its
capacity. -/
structure Slice where
  arr : Nat
  len : Nat
  cap : Nat
deriving DecidableEq, Repr

/-- The backing arrays allocated so far, each named by its position. -/
abbrev Heap := List (List User)

/-- The elements of a slice, read from its backing array. -/
def Heap.read (h : Heap) (s : Slice) : List User :=
  (h.getD s.arr []).take s.len

/-- The call `make([]User, 0, cap)`: a fresh array of zero values. -/
def Heap.make (h : Heap) (cap : Nat) : Heap × Slice :=
  (h ++ [List.replicate cap default], ⟨h.length, 0, cap⟩)

/-- The call `append(s, x)`: within capacity the element is written into the
backing array of `s`; otherwise the elements move to a fresh, larger array
(the runtime chooses its capacity; twice the old one plus one here). -/
def Heap.append (h : Heap) (s : Slice) (x : User) : Heap × Slice :=
  if s.len < s.cap then
    (h.set s.arr ((h.getD s.arr []).set s.len x), ⟨s.arr, s.len + 1, s.cap⟩)
  else
    (h ++ [h.read s ++ [x] ++ List.replicate (s.cap + (s.cap - s.len)) default],
      ⟨h.length, s.len + 1, 2 * s.cap + 1⟩)

/-- The call `slices.Clone(s)`: a fresh array holding the elements of `s`
(the runtime may give it spare capacity, which nothing here reads). -/
def Heap.clone (h : Heap) (s : Slice) : Heap × Slice :=
  (h ++ [h.read s], ⟨h.length, s.len, s.len⟩)

/-- The state of the loop of `SelectMessages`: the heap, the slice
`usersBatch`, and the argument `batch` of every `getMessagesByBatch` task
launched so far, in launch order. -/
structure SelectMessages.State where
  heap : Heap
  usersBatch : Slice
  launched : List Slice
deriving Repr

/-- One iteration of `for user := range in` of `SelectMessages`, for the
constant `GetMessagesMaxUsersBatch = B`. -/
def SelectMessages.step (B : Nat) (st : SelectMessages.State) (user : Item) :
    SelectMessages.State :=
  match user.asUser with
  | none => st
  | some userStruct =>
    let a := st.heap.append st.usersBatch userStruct
    if a.2.len < B then ⟨a.1, a.2, st.launched⟩
    else
      let c := a.1.clone a.2
      ⟨c.1, ⟨a.2.arr, 0, a.2.cap⟩, st.launched ++ [c.2]⟩

/-- The loop of `SelectMessages` on the stream `input`. -/
def SelectMessages.loop (B : Nat) (input : List Item) : SelectMessages.State :=
  input.foldl (SelectMessages.step B) ⟨(Heap.make [] B).1, (Heap.make [] B).2, []⟩

/-- The state of `SelectMessages` on the stream `input` when it reaches
`wg.Wait()`: the loop, then the launch for the remainder. -/
def SelectMessages (B : Nat) (input : List Item) : SelectMessages.State :=
  let st := SelectMessages.loop B input
  if st.usersBatch.len ≠ 0 then
    let c := st.heap.clone st.usersBatch
    ⟨c.1, st.usersBatch, st.launched ++ [c.2]⟩
  else st

/-- The batches the launched tasks hold, as they read them from the heap of
the state `st`. -/
def SelectMessages.State.batches (st : SelectMessages.State) : List (List User) :=
  st.launched.map st.heap.read

/-- What one `getMessagesByBatch` task did: the arguments of its calls of
`GetMessages` and the values it wrote to `out`, both in program order. -/
structure TaskRun where
  calls : List (List User)
  out : List Item
deriving DecidableEq, Repr

/-- The task `getMessagesByBatch`; `GetMessages` is the external batch
fetch. -/
def getMessagesByBatch (GetMessages : List User → Except String (List MsgID))
    (batch : List User) : TaskRun :=
  match GetMessages batch with
  | Except.error _ => ⟨[batch], []⟩
  | Except.ok messages => ⟨[batch], messages.map Item.msgID⟩

/-- The batches handed to the tasks `SelectMessages` launches on the stream
`input`, in launch order, as the tasks read them after the last launch. -/
def SelectMessages.handed (B : Nat) (input : List Item) : List (List User) :=
  (SelectMessages B input).batches

/-- The arguments of all calls of `GetMessages` that `SelectMessages` causes
on the stream `input`, task by task in launch order. -/
def SelectMessages.calls (GetMessages : List User → Except String (List MsgID)) (B : Nat)
    (input : List Item) : List (List User) :=
  ((SelectMessages.handed B input).map (fun b => (getMessagesByBatch GetMessages b).calls)).flatten

/-- The users of a stream, in arrival order. -/
def usersOf (input : List Item) : List User :=
  input.filterMap Item.asUser

/-- What holds of the loop of `SelectMessages` after a stream whose users are
`users`, for a batch size of at least 1: `usersBatch` still is the slice made
at the start (array 0, capacity `B`) and is not full, every launched task
holds a slice of an array of its own, the launched batches followed by the
content of `usersBatch` are the users read, and every launched batch has `B`
users. -/
def SelectMessages.Inv (B : Nat) (st : SelectMessages.State) (users : List User) : Prop :=
  st.usersBatch.arr = 0 ∧ st.usersBatch.cap = B ∧ st.usersBatch.len < B ∧
  0 < st.heap.length ∧ (st.heap.getD 0 []).length = B ∧
  (∀ c ∈ st.launched, 0 < c.arr ∧ c.arr < st.heap.length) ∧
  st.batches.flatten ++ st.heap.read st.usersBatch = users ∧
  (∀ b ∈ st.batches, b.length = B) ∧
  (st.heap.read st.usersBatch).length = st.usersBatch.len

/-- The heap `h₂` is a later state of the heap `h₁` in which every slice of
an array other than array 0 reads as before. -/
def Heap.KeepsClones (h₁ h₂ : Heap) : Prop :=
  h₁.length ≤ h₂.length ∧ ∀ c : Slice, 0 < c.arr → c.arr < h₁.length → h₂.read c = h₁.read c

/-! ## CheckSpam -/

/-- What one `checkSpamWorker` did: the values written to `out`, the
arguments of its calls of `HasSpam`, both in program order, and the part of
the offered stream it never pulled. -/
structure WorkerRun where
  out : List Item
  calls : List MsgID
  unread : List Item
deriving DecidableEq, Repr

/-- The function `checkSpamWorker`, on the items the channel hands to this
worker, in that order; `HasSpam` is the external classifier. -/
def checkSpamWorker (HasSpam : MsgID → Except String Bool) : List Item → WorkerRun
  | [] => ⟨[], [], []⟩
  | msgID :: rest =>
    match msgID.asMsgID with
    | none => ⟨[], [], rest⟩
    | some message =>
      match HasSpam message with
      | Except.error _ => ⟨[], [message], rest⟩
      | Except.ok hasSpam =>
        let r := checkSpamWorker HasSpam rest
        ⟨Item.msgData ⟨message, hasSpam⟩ :: r.out, message :: r.calls, r.unread⟩

/-- Whether `HasSpam` returns no error on a message. -/
def classifies (HasSpam : MsgID → Except String Bool) (m : MsgID) : Bool :=
  match HasSpam m with
  | Except.ok _ => true
  | Except.error _ => false

/-- The verdict `HasSpam` returns on a message (`false`, the zero value, with
an error). -/
def verdict (HasSpam : MsgID → Except String Bool) (m : MsgID) : Bool :=
  match HasSpam m with
  | Except.ok hasSpam => hasSpam
  | Except.error _ => false

/-! ## RunPipeline -/

/-- Where a `commandRunner` goroutine stands: inside `cmds[commandIdx](in, out)`,
after it returned, after the deferred `close(out)`, after the deferred
`group.Done()`. -/
inductive RunnerPC where
  | running
  | returned
  | closed
  | done
deriving DecidableEq, Repr

/-- A launched `commandRunner` goroutine with its arguments. -/
structure Runner where
  commandIdx : Nat
  inCh : Nat
  outCh : Nat
  pc : RunnerPC
deriving DecidableEq, Repr

/-- Where the body of `RunPipeline` stands: at the head of the loop with the
next `cmdIdx` (past the loop, at `wg.Wait()`, when `cmdIdx` is `len(cmds)`),
or returned. -/
inductive MainPC where
  | loop (cmdIdx : Nat)
  | returned
deriving DecidableEq, Repr

/-- What `RunPipeline` and its `commandRunner` goroutines do in a run, in the
order it happens: the two channel operations they have (`make`, `close`; there
is no send or receive in them), the launches, the returns of the stage
functions, the `Done` calls and the return of `wg.Wait()`.  What a stage
function does inside is not recorded. -/
inductive PipeEvent where
  | make (c : Nat)
  | go (commandIdx inCh outCh : Nat)
  | stageReturn (commandIdx : Nat)
  | close (c : Nat)
  | done (commandIdx : Nat)
  | waitReturn
deriving DecidableEq, Repr

/-- The state of a run of `RunPipeline`: the number of channels made (they
are named 0, 1, ... in the order of the `make` calls), the variable `in`, the
counter of the wait group, the program points, and the events so far. -/
structure PipeState where
  chans : Nat
  inCh : Nat
  wg : Nat
  main : MainPC
  runners : List Runner
  trace : List PipeEvent
deriving DecidableEq, Repr

/-- Who makes the next step: the body of `RunPipeline`, the stage function of
a goroutine (it returns), or the deferred calls of a goroutine. -/
inductive Action where
  | main
  | stage (commandIdx : Nat)
  | runner (commandIdx : Nat)
deriving DecidableEq, Repr

/-- The state after `in := make(chan interface{})` and
`wg := &sync.WaitGroup{}`. -/
def RunPipeline.init : PipeState :=
  ⟨1, 0, 0, MainPC.loop 0, [], [PipeEvent.make 0]⟩

/-- One step of the body of `RunPipeline` for `len(cmds) = n`: an iteration of
the loop, or the return of `wg.Wait()`, which needs the counter at zero. -/
def RunPipeline.mainStep (n : Nat) (s : PipeState) : Option PipeState :=
  match s.main with
  | MainPC.returned => none
  | MainPC.loop cmdIdx =>
    if cmdIdx < n then
      some ⟨s.chans + 1, s.chans, s.wg + 1, MainPC.loop (cmdIdx + 1),
        s.runners ++ [⟨cmdIdx, s.inCh, s.chans, RunnerPC.running⟩],
        s.trace ++ [PipeEvent.make s.chans, PipeEvent.go cmdIdx s.inCh s.chans]⟩
    else if s.wg = 0 then
      some ⟨s.chans, s.inCh, s.wg, MainPC.returned, s.runners, s.trace ++ [PipeEvent.waitReturn]⟩
    else none

/-- The stage function of goroutine `i` returns. -/
def RunPipeline.stageStep (i : Nat) (s : PipeState) : Option PipeState :=
  match s.runners[i]? with
  | none => none
  | some r =>
    match r.pc with
    | RunnerPC.running =>
      some ⟨s.chans, s.inCh, s.wg, s.main,
        s.runners.set i ⟨r.commandIdx, r.inCh, r.outCh, RunnerPC.returned⟩,
        s.trace ++ [PipeEvent.stageReturn r.commandIdx]⟩
    | _ => none

/-- The next deferred call of goroutine `i`, last deferred first:
`close(out)`, then `group.Done()`. -/
def RunPipeline.runnerStep (i : Nat) (s : PipeState) : Option PipeState :=
  match s.runners[i]? with
  | none => none
  | some r =>
    match r.pc with
    | RunnerPC.returned =>
      some ⟨s.chans, s.inCh, s.wg, s.main,
        s.runners.set i ⟨r.commandIdx, r.inCh, r.outCh, RunnerPC.closed⟩,
        s.trace ++ [PipeEvent.close r.outCh]⟩
    | RunnerPC.closed =>
      some ⟨s.chans, s.inCh, s.wg - 1, s.main,
        s.runners.set i ⟨r.commandIdx, r.inCh, r.outCh, RunnerPC.done⟩,
        s.trace ++ [PipeEvent.done r.commandIdx]⟩
    | _ => none

/-- One step of a run; `none` when the chosen step cannot be made. -/
def RunPipeline.step (n : Nat) (s : PipeState) : Action → Option PipeState
  | Action.main => RunPipeline.mainStep n s
  | Action.stage i => RunPipeline.stageStep i s
  | Action.runner i => RunPipeline.runnerStep i s

/-- The state a schedule leads to from a state. -/
def RunPipeline.execFrom (n : Nat) : PipeState → List Action → Option PipeState
  | s, [] => some s
  | s, a :: as =>
    match RunPipeline.step n s a with
    | none => none
    | some t => RunPipeline.execFrom n t as

/-- The state `RunPipeline` with `n` stage functions reaches under a
schedule. -/
def RunPipeline (n : Nat) (schedule : List Action) : Option PipeState :=
  RunPipeline.execFrom n RunPipeline.init schedule

/-- The schedule that runs everything in turn: launch all stages, then let
each stage return and its goroutine finish, then return. -/
def RunPipeline.inTurn (n : Nat) : List Action :=
  List.replicate n Action.main ++
    ((List.range n).map (fun i => [Action.stage i, Action.runner i, Action.runner i])).flatten ++
    [Action.main]

/-- The complete run of two stages under `RunPipeline.inTurn 2`. -/
def RunPipeline.twoStagesDone : PipeState :=
  ⟨3, 2, 0, MainPC.returned, [⟨0, 0, 1, RunnerPC.done⟩, ⟨1, 1, 2, RunnerPC.done⟩],
    [PipeEvent.make 0, PipeEvent.make 1, PipeEvent.go 0 0 1, PipeEvent.make 2,
      PipeEvent.go 1 1 2, PipeEvent.stageReturn 0, PipeEvent.close 1, PipeEvent.done 0,
      PipeEvent.stageReturn 1, PipeEvent.close 2, PipeEvent.done 1, PipeEvent.waitReturn]⟩

/-- A run of two stages in which the second stage returns first and the
body of `RunPipeline` has not reached `wg.Wait()` yet when the first closes. -/
def RunPipeline.twoStagesMixed : List Action :=
  [Action.main, Action.main, Action.stage 1, Action.runner 1, Action.stage 0,
    Action.runner 1, Action.runner 0, Action.runner 0, Action.main]

/-- What the events so far say about the goroutine launched for stage `i`:
its arguments are stage `i`, channel `i` and channel `i + 1`; its output
channel has been closed once if it is past `close(out)` and not at all
before; and the events of its past steps are there in program order. -/
def RunnerInv (trace : List PipeEvent) (i : Nat) (r : Runner) : Prop :=
  r.commandIdx = i ∧ r.inCh = i ∧ r.outCh = i + 1 ∧
  (trace.count (PipeEvent.close (i + 1)) =
    if r.pc = RunnerPC.running ∨ r.pc = RunnerPC.returned then 0 else 1) ∧
  (r.pc = RunnerPC.returned → PipeEvent.stageReturn i ∈ trace) ∧
  (r.pc = RunnerPC.closed →
    List.Sublist [PipeEvent.stageReturn i, PipeEvent.close (i + 1)] trace) ∧
  (r.pc = RunnerPC.done →
    List.Sublist [PipeEvent.stageReturn i, PipeEvent.close (i + 1), PipeEvent.done i] trace)

/-- What holds in every state of a run of `RunPipeline` with `n` stage
functions. -/
def PipeInv (n : Nat) (s : PipeState) : Prop :=
  s.chans = s.runners.length + 1 ∧ s.inCh = s.runners.length ∧ s.runners.length ≤ n ∧
  (∀ i r, s.runners[i]? = some r → RunnerInv s.trace i r) ∧
  (∀ c, PipeEvent.close c ∈ s.trace → 1 ≤ c ∧ c ≤ s.runners.length) ∧
  s.wg = s.runners.countP (fun r => r.pc != RunnerPC.done) ∧
  (∀ k, s.main = MainPC.loop k → k = s.runners.length ∧ PipeEvent.waitReturn ∉ s.trace) ∧
  (s.main = MainPC.returned →
    s.runners.length = n ∧ (∀ r ∈ s.runners, r.pc = RunnerPC.done) ∧
    ∃ t, s.trace = t ++ [PipeEvent.waitReturn] ∧ PipeEvent.waitReturn ∉ t ∧
      ∀ i, i < n → List.Sublist [PipeEvent.stageReturn i, PipeEvent.close (i + 1),
        PipeEvent.done i] t)

/-! ## Results on CombineResults -/

theorem sent_append (xs ys : List Event) : sent (xs ++ ys) = sent xs ++ sent ys := by
  induction xs with
  | nil => rfl
  | cons e es ih => cases e <;> simp [sent, ih]

theorem sent_map_recv (xs : List Item) : sent (xs.map Event.recv) = [] := by
  induction xs with
  | nil => rfl
  | cons x xs ih => simpa [sent] using ih

theorem sent_map_send (xs : List Item) : sent (xs.map Event.send) = xs := by
  induction xs with
  | nil => rfl
  | cons x xs ih => simp [sent, ih]

theorem collect_eq (input : List Item) (messages : List MsgData) (trace : List Event) :
    CombineResults.collect input (messages, trace) =
      (messages ++ input.filterMap Item.asMsgData, trace ++ input.map Event.recv) := by
  induction input generalizing messages trace with
  | nil => simp [CombineResults.collect]
  | cons x xs ih =>
    cases hx : x.asMsgData with
    | none => simp [CombineResults.collect, hx, ih, List.filterMap_cons]
    | some d => simp [CombineResults.collect, hx, ih, List.filterMap_cons]

theorem emit_eq (messages : List MsgData) (trace : List Event) :
    CombineResults.emit messages trace =
      trace ++ (messages.map (fun d => Item.str (formatMsg d))).map Event.send := by
  induction messages generalizing trace with
  | nil => simp [CombineResults.emit]
  | cons m ms ih => simp [CombineResults.emit, ih]

theorem run_eq (sortFunc : (MsgData → MsgData → Int) → List MsgData → List MsgData)
    (input : List Item) :
    CombineResults.run sortFunc input =
      input.map Event.recv ++
        ((sortFunc cmpMsgData (input.filterMap Item.asMsgData)).map
          (fun d => Item.str (formatMsg d))).map Event.send := by
  simp [CombineResults.run, collect_eq, emit_eq]

theorem CombineResults_eq (sortFunc : (MsgData → MsgData → Int) → List MsgData → List MsgData)
    (input : List Item) :
    CombineResults sortFunc input =
      (sortFunc cmpMsgData (input.filterMap Item.asMsgData)).map
        (fun d => Item.str (formatMsg d)) := by
  rw [CombineResults, run_eq, sent_append, sent_map_recv, sent_map_send, List.nil_append]

theorem cmpCompare_neg (x y : Nat) : cmpCompare x y < 0 ↔ x < y := by
  rcases Nat.lt_trichotomy x y with h | h | h
  · simp [cmpCompare, h, Nat.lt_asymm h, Nat.ne_of_lt h, Nat.ne_of_gt h]
  · simp [cmpCompare, h]
  · simp [cmpCompare, h, Nat.lt_asymm h, Nat.ne_of_lt h, Nat.ne_of_gt h]

theorem cmpCompare_pos (x y : Nat) : 0 < cmpCompare x y ↔ y < x := by
  rcases Nat.lt_trichotomy x y with h | h | h
  · simp [cmpCompare, h, Nat.lt_asymm h, Nat.ne_of_lt h, Nat.ne_of_gt h]
  · simp [cmpCompare, h]
  · simp [cmpCompare, h, Nat.lt_asymm h, Nat.ne_of_lt h, Nat.ne_of_gt h]

theorem cmpCompare_zero (x y : Nat) : cmpCompare x y = 0 ↔ x = y := by
  rcases Nat.lt_trichotomy x y with h | h | h
  · simp [cmpCompare, h, Nat.lt_asymm h, Nat.ne_of_lt h, Nat.ne_of_gt h]
  · simp [cmpCompare, h]
  · simp [cmpCompare, h, Nat.lt_asymm h, Nat.ne_of_lt h, Nat.ne_of_gt h]

/-- When the comparator says "less": spam before non-spam, or the same flag
and a smaller ID. -/
theorem cmpMsgData_neg (a b : MsgData) :
    cmpMsgData a b < 0 ↔
      (a.HasSpam = true ∧ b.HasSpam = false) ∨ (a.HasSpam = b.HasSpam ∧ a.ID < b.ID) := by
  rcases a with ⟨i, sa⟩
  rcases b with ⟨j, sb⟩
  cases sa <;> cases sb <;> simp [cmpMsgData, cmpCompare_neg]

theorem cmpMsgData_pos (a b : MsgData) :
    0 < cmpMsgData a b ↔
      (b.HasSpam = true ∧ a.HasSpam = false) ∨ (a.HasSpam = b.HasSpam ∧ b.ID < a.ID) := by
  rcases a with ⟨i, sa⟩
  rcases b with ⟨j, sb⟩
  cases sa <;> cases sb <;> simp [cmpMsgData, cmpCompare_pos]

theorem cmpMsgData_zero (a b : MsgData) : cmpMsgData a b = 0 ↔ a = b := by
  rcases a with ⟨i, sa⟩
  rcases b with ⟨j, sb⟩
  cases sa <;> cases sb <;> simp [cmpMsgData, cmpCompare_zero]

theorem cmpMsgData_strictWeak : StrictWeakOrdering cmpMsgData := by
  refine ⟨fun a => (cmpMsgData_zero a a).mpr rfl, ?_, ?_, ?_⟩
  · intro a b
    rw [cmpMsgData_neg, cmpMsgData_pos]
    constructor
    · rintro (h | ⟨h, hlt⟩)
      · exact Or.inl h
      · exact Or.inr ⟨h.symm, hlt⟩
    · rintro (h | ⟨h, hlt⟩)
      · exact Or.inl h
      · exact Or.inr ⟨h.symm, hlt⟩
  · intro a b c
    rw [cmpMsgData_neg, cmpMsgData_neg, cmpMsgData_neg]
    rintro (⟨h1, h2⟩ | ⟨h1, h2⟩) (⟨h3, h4⟩ | ⟨h3, h4⟩)
    · simp [h2] at h3
    · exact Or.inl ⟨h1, by rw [← h3]; exact h2⟩
    · exact Or.inl ⟨by rw [h1]; exact h3, h4⟩
    · exact Or.inr ⟨h1.trans h3, lt_trans h2 h4⟩
  · intro a b c hab hbc
    rw [cmpMsgData_zero] at *
    exact hab.trans hbc

theorem StrictWeakOrdering.total {α : Type} {cmp : α → α → Int} (h : StrictWeakOrdering cmp)
    (a b : α) : ¬ cmp b a < 0 ∨ ¬ cmp a b < 0 := by
  have h1 := h.flip a b
  by_contra hc
  push_neg at hc
  have := h1.mp hc.2
  omega

theorem StrictWeakOrdering.not_lt_trans {α : Type} {cmp : α → α → Int}
    (h : StrictWeakOrdering cmp) (a b c : α) (hab : ¬ cmp b a < 0) (hbc : ¬ cmp c b < 0) :
    ¬ cmp c a < 0 := by
  intro hca
  have hbc1 : ¬ cmp b c < 0 := fun hlt => hab (h.trans b c a hlt hca)
  have hab1 : ¬ cmp a b < 0 := fun hlt => hbc (h.trans c a b hca hlt)
  have f1 := h.flip b c
  have f2 := h.flip a b
  have e1 : cmp c b = 0 := by
    by_contra hne
    have : 0 < cmp c b := by omega
    exact hbc1 (f1.mpr this)
  have e2 : cmp b a = 0 := by
    by_contra hne
    have : 0 < cmp b a := by omega
    exact hab1 (f2.mpr this)
  have := h.equiv_trans c b a e1 e2
  omega

theorem insertionSort_ascending (cmp : MsgData → MsgData → Int) (h : StrictWeakOrdering cmp)
    (xs : List MsgData) :
    (xs.insertionSort (fun a b => ¬ cmp b a < 0)).Pairwise (fun a b => ¬ cmp b a < 0) := by
  haveI : IsTotal MsgData (fun a b => ¬ cmp b a < 0) := ⟨fun a b => h.total a b⟩
  haveI : IsTrans MsgData (fun a b => ¬ cmp b a < 0) := ⟨fun a b c => h.not_lt_trans a b c⟩
  exact List.sorted_insertionSort (fun a b => ¬ cmp b a < 0) xs

/-- Insertion sort meets the contract of `slices.SortFunc`. -/
theorem insertionSortFunc_contract : SortContract insertionSortFunc := by
  intro cmp xs
  exact ⟨List.perm_insertionSort _ xs, fun h => insertionSort_ascending cmp h xs⟩

/-- Insertion sort of the reversed slice meets it too. -/
theorem reverseInsertionSortFunc_contract : SortContract reverseInsertionSortFunc := by
  intro cmp xs
  exact ⟨(List.perm_insertionSort _ xs.reverse).trans (List.reverse_perm xs),
    fun h => insertionSort_ascending cmp h xs.reverse⟩

/-- Two ascending arrangements of the same messages under `cmpMsgData` are
equal: the comparator ties only equal messages. -/
theorem ascending_unique (l₁ l₂ : List MsgData) (hp : l₁.Perm l₂)
    (h₁ : l₁.Pairwise (fun a b => ¬ cmpMsgData b a < 0))
    (h₂ : l₂.Pairwise (fun a b => ¬ cmpMsgData b a < 0)) : l₁ = l₂ := by
  haveI : IsAntisymm MsgData (fun a b => ¬ cmpMsgData b a < 0) :=
    ⟨fun a b hab hba => by
      have f := cmpMsgData_strictWeak.flip a b
      have : cmpMsgData a b = 0 := by
        by_contra hne
        have : 0 < cmpMsgData a b := by omega
        exact hab ((cmpMsgData_strictWeak.flip b a).mpr this)
      exact (cmpMsgData_zero a b).mp this⟩
  exact List.eq_of_perm_of_sorted hp h₁ h₂

/-- Any two sorting functions that meet the contract agree under `cmpMsgData`
on any two arrangements of the same messages. -/
theorem sortFunc_unique (f g : (MsgData → MsgData → Int) → List MsgData → List MsgData)
    (hf : SortContract f) (hg : SortContract g) (xs ys : List MsgData) (hp : xs.Perm ys) :
    f cmpMsgData xs = g cmpMsgData ys := by
  have h1 := hf cmpMsgData xs
  have h2 := hg cmpMsgData ys
  exact ascending_unique _ _ ((h1.1.trans hp).trans h2.1.symm)
    (h1.2 cmpMsgData_strictWeak) (h2.2 cmpMsgData_strictWeak)

/-- In an ascending arrangement of distinct messages every earlier message
is either spam before non-spam, or of the same flag with a smaller ID. -/
theorem ascending_nodup_strict (l : List MsgData) (hd : l.Nodup)
    (h : l.Pairwise (fun a b => ¬ cmpMsgData b a < 0)) :
    l.Pairwise (fun a b =>
      (a.HasSpam = true ∧ b.HasSpam = false) ∨ (a.HasSpam = b.HasSpam ∧ a.ID < b.ID)) := by
  have hne : l.Pairwise (fun a b => a ≠ b) := hd
  refine (h.and hne).imp ?_
  rintro a b ⟨hab, hn⟩
  rw [← cmpMsgData_neg]
  have f := cmpMsgData_strictWeak.flip a b
  by_contra hc
  have : cmpMsgData a b = 0 := by
    by_contra hne0
    have : 0 < cmpMsgData a b := by omega
    exact hab ((cmpMsgData_strictWeak.flip b a).mpr this)
  exact hn ((cmpMsgData_zero a b).mp this)

/-! ### The claims on CombineResults -/

/-- C1: on a stream whose `MsgData` items are pairwise distinct, the lines
`CombineResults` writes are the formatted messages in an order in which, for
any two lines, the earlier one is a spam line and the later one a non-spam
line, or both have the same flag and the earlier one has the strictly smaller
ID; and for the messages (3, false), (1, true), (2, true) the lines are
"true 1", "true 2", "false 3". -/
theorem CombineResults_spam_first_ids_ascending
    (sortFunc : (MsgData → MsgData → Int) → List MsgData → List MsgData)
    (hsort : SortContract sortFunc) (input : List Item)
    (hdistinct : (input.filterMap Item.asMsgData).Nodup) :
    (∃ sorted : List MsgData,
      sorted.Perm (input.filterMap Item.asMsgData) ∧
      CombineResults sortFunc input = sorted.map (fun d => Item.str (formatMsg d)) ∧
      sorted.Pairwise (fun a b =>
        (a.HasSpam = true ∧ b.HasSpam = false) ∨ (a.HasSpam = b.HasSpam ∧ a.ID < b.ID))) ∧
    CombineResults sortFunc
        [Item.msgData ⟨3, false⟩, Item.msgData ⟨1, true⟩, Item.msgData ⟨2, true⟩] =
      [Item.str "true 1", Item.str "true 2", Item.str "false 3"] := by
  constructor
  · have h := hsort cmpMsgData (input.filterMap Item.asMsgData)
    refine ⟨sortFunc cmpMsgData (input.filterMap Item.asMsgData), h.1,
      CombineResults_eq sortFunc input, ?_⟩
    exact ascending_nodup_strict _ (h.1.nodup_iff.mpr hdistinct) (h.2 cmpMsgData_strictWeak)
  · rw [CombineResults_eq,
      sortFunc_unique sortFunc insertionSortFunc hsort insertionSortFunc_contract _ _
        (List.Perm.refl _)]
    decide

theorem CombineResults_spam_first_ids_ascending_witness :
    SortContract insertionSortFunc ∧
    (List.filterMap Item.asMsgData
      [Item.msgData ⟨3, false⟩, Item.other 0, Item.msgData ⟨1, true⟩, Item.msgData ⟨2, true⟩]).Nodup ∧
    ((∃ sorted : List MsgData,
      sorted.Perm (List.filterMap Item.asMsgData
        [Item.msgData ⟨3, false⟩, Item.other 0, Item.msgData ⟨1, true⟩, Item.msgData ⟨2, true⟩]) ∧
      CombineResults insertionSortFunc
        [Item.msgData ⟨3, false⟩, Item.other 0, Item.msgData ⟨1, true⟩, Item.msgData ⟨2, true⟩] =
          sorted.map (fun d => Item.str (formatMsg d)) ∧
      sorted.Pairwise (fun a b =>
        (a.HasSpam = true ∧ b.HasSpam = false) ∨ (a.HasSpam = b.HasSpam ∧ a.ID < b.ID))) ∧
    CombineResults insertionSortFunc
        [Item.msgData ⟨3, false⟩, Item.msgData ⟨1, true⟩, Item.msgData ⟨2, true⟩] =
      [Item.str "true 1", Item.str "true 2", Item.str "false 3"]) :=
  ⟨insertionSortFunc_contract, by decide,
    CombineResults_spam_first_ids_ascending insertionSortFunc insertionSortFunc_contract
      [Item.msgData ⟨3, false⟩, Item.other 0, Item.msgData ⟨1, true⟩, Item.msgData ⟨2, true⟩]
      (by decide)⟩

/-- `CombineResults` drops the items that are not `MsgData` and goes on. -/
theorem CombineResults_drops_mistyped
    (sortFunc : (MsgData → MsgData → Int) → List MsgData → List MsgData) (input : List Item) :
    CombineResults sortFunc input =
      CombineResults sortFunc (input.filter (fun x => x.asMsgData.isSome)) := by
  rw [CombineResults_eq, CombineResults_eq]
  congr 2
  induction input with
  | nil => rfl
  | cons x xs ih =>
    cases hx : x.asMsgData <;> simp [List.filterMap_cons, List.filter_cons, hx, ih]

/-- The line `CombineResults` formats is the report line of the spec. -/
theorem formatMsg_eq_reportLine (d : MsgData) : formatMsg d = reportLine d := by
  rcases d with ⟨n, b⟩
  cases b <;> rfl

/-- The `MsgData` items of a stream, formatted, are the lines the spec asks
for. -/
theorem expectedLines_eq (input : List Item) :
    expectedLines input =
      (input.filterMap Item.asMsgData).map (fun d => Item.str (formatMsg d)) := by
  induction input with
  | nil => rfl
  | cons x xs ih =>
    cases x <;>
      simp [expectedLines, List.filterMap_cons, Item.asMsgData, ih, formatMsg_eq_reportLine]

/-- C2: the lines `CombineResults` writes are, as a multiset, the report lines
`"<HasSpam> <ID>"` of the `MsgData` items of the stream (one line per such
item, repeated items keeping their multiplicity, nothing for an item of
another type, nothing else); in its run every read of the stream comes before
the first write; and on the stream (2, false), "x", (2, false), (1, true) the
lines are "true 1", "false 2", "false 2", written after the four reads. -/
theorem CombineResults_lines_multiset_after_input
    (sortFunc : (MsgData → MsgData → Int) → List MsgData → List MsgData)
    (hsort : SortContract sortFunc) (input : List Item) :
    (Multiset.ofList (CombineResults sortFunc input) =
      Multiset.ofList (expectedLines input)) ∧
    CombineResults.run sortFunc input =
      input.map Event.recv ++ (CombineResults sortFunc input).map Event.send ∧
    CombineResults.run sortFunc
        [Item.msgData ⟨2, false⟩, Item.str "x", Item.msgData ⟨2, false⟩, Item.msgData ⟨1, true⟩] =
      [Event.recv (Item.msgData ⟨2, false⟩), Event.recv (Item.str "x"),
        Event.recv (Item.msgData ⟨2, false⟩), Event.recv (Item.msgData ⟨1, true⟩),
        Event.send (Item.str "true 1"), Event.send (Item.str "false 2"),
        Event.send (Item.str "false 2")] := by
  refine ⟨?_, ?_, ?_⟩
  · rw [CombineResults_eq, expectedLines_eq]
    exact Multiset.coe_eq_coe.mpr ((hsort cmpMsgData _).1.map _)
  · rw [run_eq, CombineResults_eq]
  · rw [run_eq,
      sortFunc_unique sortFunc insertionSortFunc hsort insertionSortFunc_contract _ _
        (List.Perm.refl _)]
    decide

theorem CombineResults_lines_multiset_after_input_witness :
    SortContract reverseInsertionSortFunc ∧
    CombineResults reverseInsertionSortFunc
        [Item.msgData ⟨2, false⟩, Item.str "x", Item.msgData ⟨2, false⟩, Item.msgData ⟨1, true⟩] =
      [Item.str "true 1", Item.str "false 2", Item.str "false 2"] ∧
    expectedLines
        [Item.msgData ⟨2, false⟩, Item.str "x", Item.msgData ⟨2, false⟩, Item.msgData ⟨1, true⟩] =
      [Item.str "false 2", Item.str "false 2", Item.str "true 1"] ∧
    Multiset.ofList (CombineResults reverseInsertionSortFunc
        [Item.msgData ⟨2, false⟩, Item.str "x", Item.msgData ⟨2, false⟩, Item.msgData ⟨1, true⟩]) =
      Multiset.ofList (expectedLines
        [Item.msgData ⟨2, false⟩, Item.str "x", Item.msgData ⟨2, false⟩,
          Item.msgData ⟨1, true⟩]) :=
  ⟨reverseInsertionSortFunc_contract, by decide, by decide,
    (CombineResults_lines_multiset_after_input reverseInsertionSortFunc
      reverseInsertionSortFunc_contract
      [Item.msgData ⟨2, false⟩, Item.str "x", Item.msgData ⟨2, false⟩,
        Item.msgData ⟨1, true⟩]).1⟩

/-- C7: two streams that are rearrangements of each other (repeated items
allowed) give the same sequence of lines, whichever sorting function meeting
the contract of `slices.SortFunc` is used on either; the comparator is a
strict weak ordering whose result is 0 only for messages equal in both ID and
HasSpam. -/
theorem CombineResults_deterministic
    (f g : (MsgData → MsgData → Int) → List MsgData → List MsgData)
    (hf : SortContract f) (hg : SortContract g) (xs ys : List Item) (hperm : xs.Perm ys) :
    CombineResults f xs = CombineResults g ys ∧
    StrictWeakOrdering cmpMsgData ∧
    (∀ a b : MsgData, cmpMsgData a b = 0 ↔ (a.ID = b.ID ∧ a.HasSpam = b.HasSpam)) := by
  refine ⟨?_, cmpMsgData_strictWeak, ?_⟩
  · rw [CombineResults_eq, CombineResults_eq,
      sortFunc_unique f g hf hg _ _ (hperm.filterMap Item.asMsgData)]
  · intro a b
    rw [cmpMsgData_zero]
    rcases a with ⟨i, sa⟩
    rcases b with ⟨j, sb⟩
    simp

theorem CombineResults_deterministic_witness :
    SortContract insertionSortFunc ∧ SortContract reverseInsertionSortFunc ∧
    List.Perm [Item.msgData ⟨5, true⟩, Item.msgData ⟨4, false⟩, Item.msgData ⟨5, true⟩]
      [Item.msgData ⟨5, true⟩, Item.msgData ⟨5, true⟩, Item.msgData ⟨4, false⟩] ∧
    (CombineResults insertionSortFunc
        [Item.msgData ⟨5, true⟩, Item.msgData ⟨4, false⟩, Item.msgData ⟨5, true⟩] =
      CombineResults reverseInsertionSortFunc
        [Item.msgData ⟨5, true⟩, Item.msgData ⟨5, true⟩, Item.msgData ⟨4, false⟩] ∧
    StrictWeakOrdering cmpMsgData ∧
    (∀ a b : MsgData, cmpMsgData a b = 0 ↔ (a.ID = b.ID ∧ a.HasSpam = b.HasSpam))) :=
  ⟨insertionSortFunc_contract, reverseInsertionSortFunc_contract, by decide,
    CombineResults_deterministic insertionSortFunc reverseInsertionSortFunc
      insertionSortFunc_contract reverseInsertionSortFunc_contract _ _ (by decide)⟩

/-! ## Results on SelectUsers -/

theorem emailsOf_append_user (out : List Item) (u : User) :
    emailsOf (out ++ [Item.user u]) = emailsOf out ++ [u.Email] := by
  simp [emailsOf, List.filterMap_append, Item.asUser]

theorem passUniqueUsers_mistyped (GetUser : String → User) (st : SelectUsers.State) (x : Item)
    (hx : x.asString = none) : SelectUsers.passUniqueUsers GetUser st x = st := by
  simp [SelectUsers.passUniqueUsers, SelectUsers.getUserByEmail, hx]

theorem passUniqueUsers_inv (GetUser : String → User) (st : SelectUsers.State) (x : Item)
    (h : SelectUsers.Inv st) :
    SelectUsers.Inv (SelectUsers.passUniqueUsers GetUser st x) ∧
    (∀ e, e ∈ (SelectUsers.passUniqueUsers GetUser st x).uniqueUsers ↔
      e ∈ st.uniqueUsers ∨ e ∈ resolvedEmails GetUser [x]) := by
  cases hx : x.asString with
  | none =>
    rw [passUniqueUsers_mistyped GetUser st x hx]
    refine ⟨h, fun e => ?_⟩
    simp [resolvedEmails, List.filterMap_cons, hx]
  | some s =>
    by_cases hm : (GetUser s).Email ∈ st.uniqueUsers
    · have : SelectUsers.passUniqueUsers GetUser st x = st := by
        simp [SelectUsers.passUniqueUsers, SelectUsers.getUserByEmail, hx, hm]
      rw [this]
      refine ⟨h, fun e => ?_⟩
      simp only [resolvedEmails, List.filterMap_cons, hx, List.filterMap_nil, List.map_cons,
        List.map_nil, List.mem_singleton]
      constructor
      · exact Or.inl
      · rintro (h1 | h1)
        · exact h1
        · rw [h1]; exact hm
    · have : SelectUsers.passUniqueUsers GetUser st x =
          ⟨(GetUser s).Email :: st.uniqueUsers, st.out ++ [Item.user (GetUser s)]⟩ := by
        simp [SelectUsers.passUniqueUsers, SelectUsers.getUserByEmail, hx, hm]
      rw [this]
      obtain ⟨h1, h2, h3⟩ := h
      refine ⟨⟨?_, ?_, ?_⟩, fun e => ?_⟩
      · intro y hy
        rcases List.mem_append.mp hy with hy | hy
        · exact h1 y hy
        · exact ⟨GetUser s, List.mem_singleton.mp hy⟩
      · rw [emailsOf_append_user]
        refine List.Nodup.append h2 (List.nodup_singleton _) ?_
        intro e he1 he2
        rw [List.mem_singleton] at he2
        subst he2
        exact hm ((h3 _).mp he1)
      · intro e
        rw [emailsOf_append_user]
        simp only [List.mem_append, List.mem_singleton, List.mem_cons]
        rw [h3 e]
        tauto
      · simp only [resolvedEmails, List.filterMap_cons, hx, List.filterMap_nil, List.map_cons,
          List.map_nil, List.mem_singleton, List.mem_cons]
        tauto

/-- `SelectUsers` drops the items that are not strings and goes on. -/
theorem SelectUsers_drops_mistyped (GetUser : String → User) (order : List Item) :
    SelectUsers GetUser order =
      SelectUsers GetUser (order.filter (fun x => x.asString.isSome)) := by
  unfold SelectUsers
  generalize (⟨[], []⟩ : SelectUsers.State) = st
  induction order generalizing st with
  | nil => rfl
  | cons x xs ih =>
    cases hx : x.asString with
    | none =>
      rw [List.foldl_cons, passUniqueUsers_mistyped GetUser st x hx, ih]
      simp [List.filter_cons, hx]
    | some e =>
      rw [List.foldl_cons, ih]
      simp [List.filter_cons, hx]

theorem resolvedEmails_cons (GetUser : String → User) (x : Item) (xs : List Item) :
    resolvedEmails GetUser (x :: xs) = resolvedEmails GetUser [x] ++ resolvedEmails GetUser xs := by
  cases hx : x.asString <;> simp [resolvedEmails, List.filterMap_cons, hx]

theorem SelectUsers_fold_inv (GetUser : String → User) (order : List Item)
    (st : SelectUsers.State) (h : SelectUsers.Inv st) :
    SelectUsers.Inv (order.foldl (SelectUsers.passUniqueUsers GetUser) st) ∧
    (∀ e, e ∈ (order.foldl (SelectUsers.passUniqueUsers GetUser) st).uniqueUsers ↔
      e ∈ st.uniqueUsers ∨ e ∈ resolvedEmails GetUser order) := by
  induction order generalizing st with
  | nil => exact ⟨h, fun e => by simp [resolvedEmails]⟩
  | cons x xs ih =>
    obtain ⟨hi, hu⟩ := passUniqueUsers_inv GetUser st x h
    obtain ⟨hi2, hu2⟩ := ih _ hi
    refine ⟨hi2, fun e => ?_⟩
    have hc : e ∈ resolvedEmails GetUser (x :: xs) ↔
        e ∈ resolvedEmails GetUser [x] ∨ e ∈ resolvedEmails GetUser xs := by
      rw [resolvedEmails_cons, List.mem_append]
    rw [List.foldl_cons, hu2 e, hu e, hc]
    tauto

theorem SelectUsers_spec (GetUser : String → User) (order : List Item) :
    (∀ x ∈ SelectUsers GetUser order, ∃ u, x = Item.user u) ∧
    (emailsOf (SelectUsers GetUser order)).Nodup ∧
    (∀ e, e ∈ emailsOf (SelectUsers GetUser order) ↔ e ∈ resolvedEmails GetUser order) := by
  have h0 : SelectUsers.Inv ⟨[], []⟩ := ⟨by simp, by simp [emailsOf], by simp [emailsOf]⟩
  obtain ⟨⟨h1, h2, h3⟩, hu⟩ := SelectUsers_fold_inv GetUser order ⟨[], []⟩ h0
  refine ⟨h1, h2, fun e => ?_⟩
  unfold SelectUsers
  rw [h3 e, hu e]
  simp

theorem resolvedEmails_perm (GetUser : String → User) (xs ys : List Item) (h : xs.Perm ys) :
    (resolvedEmails GetUser xs).Perm (resolvedEmails GetUser ys) :=
  (h.filterMap Item.asString).map _

theorem emailsOf_length (items : List Item) (h : ∀ x ∈ items, ∃ u, x = Item.user u) :
    (emailsOf items).length = items.length := by
  induction items with
  | nil => rfl
  | cons x xs ih =>
    obtain ⟨u, rfl⟩ := h _ (List.mem_cons_self _ _)
    have := ih (fun y hy => h y (List.mem_cons_of_mem _ hy))
    simpa [emailsOf, List.filterMap_cons, Item.asUser] using this

theorem SelectUsers_length (GetUser : String → User) (input order : List Item)
    (hperm : order.Perm input) :
    (SelectUsers GetUser order).length = (resolvedEmails GetUser input).dedup.length := by
  obtain ⟨h1, h2, h3⟩ := SelectUsers_spec GetUser order
  rw [← emailsOf_length _ h1]
  apply List.Perm.length_eq
  rw [List.perm_ext_iff_of_nodup h2 (List.nodup_dedup _)]
  intro e
  rw [h3 e, List.mem_dedup]
  exact (resolvedEmails_perm GetUser order input hperm).mem_iff

/-- C3: whatever the order in which the tasks of `SelectUsers` pass the locked
section, only users are written, their `Email` fields are pairwise distinct,
an email is among them exactly when some string of the input resolves to it,
and so as many users are written as there are distinct resolved emails; for
the input "a@x", "b@x", "a@x" with `GetUser` returning users with those
emails, 2 users are written. -/
theorem SelectUsers_each_resolved_email_once (GetUser : String → User)
    (input order : List Item) (hperm : order.Perm input) :
    (∀ x ∈ SelectUsers GetUser order, ∃ u, x = Item.user u) ∧
    (emailsOf (SelectUsers GetUser order)).Nodup ∧
    (∀ e, e ∈ emailsOf (SelectUsers GetUser order) ↔ e ∈ resolvedEmails GetUser input) ∧
    (SelectUsers GetUser order).length = (resolvedEmails GetUser input).dedup.length ∧
    (∀ order₂ : List Item, order₂.Perm [Item.str "a@x", Item.str "b@x", Item.str "a@x"] →
      (SelectUsers (fun e => ⟨e, 0⟩) order₂).length = 2) := by
  obtain ⟨h1, h2, h3⟩ := SelectUsers_spec GetUser order
  refine ⟨h1, h2, fun e => ?_, SelectUsers_length GetUser input order hperm, ?_⟩
  · rw [h3 e]
    exact (resolvedEmails_perm GetUser order input hperm).mem_iff
  · intro order₂ h
    rw [SelectUsers_length _ _ order₂ h]
    decide

theorem SelectUsers_each_resolved_email_once_witness :
    List.Perm [Item.str "a@x", Item.str "a@x", Item.other 7, Item.str "b@x"]
      [Item.str "a@x", Item.str "b@x", Item.other 7, Item.str "a@x"] ∧
    SelectUsers (fun e => ⟨e, e.length⟩)
        [Item.str "a@x", Item.str "a@x", Item.other 7, Item.str "b@x"] =
      [Item.user ⟨"a@x", 3⟩, Item.user ⟨"b@x", 3⟩] ∧
    (emailsOf (SelectUsers (fun e => ⟨e, e.length⟩)
      [Item.str "a@x", Item.str "a@x", Item.other 7, Item.str "b@x"])).Nodup :=
  ⟨by decide, by decide,
    (SelectUsers_each_resolved_email_once (fun e => ⟨e, e.length⟩)
      [Item.str "a@x", Item.str "b@x", Item.other 7, Item.str "a@x"]
      [Item.str "a@x", Item.str "a@x", Item.other 7, Item.str "b@x"] (by decide)).2.1⟩

/-! ## Results on checkSpamWorker -/

theorem classifies_ok (HasSpam : MsgID → Except String Bool) (m : MsgID)
    (h : classifies HasSpam m = true) : HasSpam m = Except.ok (verdict HasSpam m) := by
  unfold classifies at h
  unfold verdict
  cases hm : HasSpam m with
  | ok b => rfl
  | error e => simp [hm] at h

/-- C6: on messages m1..mk pulled in that order, a `checkSpamWorker` writes
`MsgData{mi, HasSpam(mi)}` for the messages of the longest prefix on which
`HasSpam` returns no error, in that order and one for each; it calls
`HasSpam` on that prefix and on the message after it, which is the first one
with an error, and on no later message; it leaves every later message in the
channel; so it writes at most as many classified messages as it was given
messages. -/
theorem checkSpamWorker_stops_at_first_error (HasSpam : MsgID → Except String Bool)
    (ms : List MsgID) :
    (checkSpamWorker HasSpam (ms.map Item.msgID)).out =
        (ms.takeWhile (classifies HasSpam)).map
          (fun m => Item.msgData ⟨m, verdict HasSpam m⟩) ∧
    (∀ m ∈ ms.takeWhile (classifies HasSpam), HasSpam m = Except.ok (verdict HasSpam m)) ∧
    (checkSpamWorker HasSpam (ms.map Item.msgID)).calls =
        ms.take ((ms.takeWhile (classifies HasSpam)).length + 1) ∧
    (checkSpamWorker HasSpam (ms.map Item.msgID)).unread =
        (ms.drop ((ms.takeWhile (classifies HasSpam)).length + 1)).map Item.msgID ∧
    (∀ m, ms.get? (ms.takeWhile (classifies HasSpam)).length = some m →
      ∃ err, HasSpam m = Except.error err) ∧
    (checkSpamWorker HasSpam (ms.map Item.msgID)).out.length ≤ ms.length := by
  suffices h : (checkSpamWorker HasSpam (ms.map Item.msgID)).out =
        (ms.takeWhile (classifies HasSpam)).map
          (fun m => Item.msgData ⟨m, verdict HasSpam m⟩) ∧
      (∀ m ∈ ms.takeWhile (classifies HasSpam), HasSpam m = Except.ok (verdict HasSpam m)) ∧
      (checkSpamWorker HasSpam (ms.map Item.msgID)).calls =
          ms.take ((ms.takeWhile (classifies HasSpam)).length + 1) ∧
      (checkSpamWorker HasSpam (ms.map Item.msgID)).unread =
          (ms.drop ((ms.takeWhile (classifies HasSpam)).length + 1)).map Item.msgID ∧
      (∀ m, ms.get? (ms.takeWhile (classifies HasSpam)).length = some m →
        ∃ err, HasSpam m = Except.error err) by
    obtain ⟨h1, h2, h3, h4, h5⟩ := h
    refine ⟨h1, h2, h3, h4, h5, ?_⟩
    rw [h1, List.length_map]
    exact (List.takeWhile_sublist _).length_le
  induction ms with
  | nil => simp [checkSpamWorker]
  | cons m ms ih =>
    obtain ⟨h1, h2, h3, h4, h5⟩ := ih
    cases hm : HasSpam m with
    | error e =>
      have hc : classifies HasSpam m = false := by simp [classifies, hm]
      simp [checkSpamWorker, Item.asMsgID, hm, List.takeWhile_cons, hc]
    | ok b =>
      have hc : classifies HasSpam m = true := by simp [classifies, hm]
      have hv : verdict HasSpam m = b := by simp [verdict, hm]
      refine ⟨?_, ?_, ?_, ?_, ?_⟩
      · simp [checkSpamWorker, Item.asMsgID, hm, List.takeWhile_cons, hc, h1, hv]
      · intro x hx
        rw [List.takeWhile_cons, if_pos hc] at hx
        rcases List.mem_cons.mp hx with rfl | hx
        · rw [hm, hv]
        · exact h2 x hx
      · simp [checkSpamWorker, Item.asMsgID, hm, List.takeWhile_cons, hc, h3]
      · simp [checkSpamWorker, Item.asMsgID, hm, List.takeWhile_cons, hc, h4]
      · intro x hx
        rw [List.takeWhile_cons, if_pos hc] at hx
        exact h5 x (by simpa using hx)

/-- A `checkSpamWorker` that pulls an item which is not a `MsgID` returns at
once: it writes nothing and leaves every later item in the channel. -/
theorem checkSpamWorker_mistyped_returns (HasSpam : MsgID → Except String Bool) (x : Item)
    (rest : List Item) (hx : x.asMsgID = none) :
    checkSpamWorker HasSpam (x :: rest) = ⟨[], [], rest⟩ := by
  simp [checkSpamWorker, hx]

/-- C5, at the failing input: a worker that pulls a string and then the
message 1 writes nothing and leaves the message unread, while on the same
stream without the string it writes the classified message. -/
theorem checkSpamWorker_mistyped_item_ends_worker :
    checkSpamWorker (fun _ => Except.ok true) [Item.str "x", Item.msgID 1] =
      ⟨[], [], [Item.msgID 1]⟩ ∧
    checkSpamWorker (fun _ => Except.ok true)
        ([Item.str "x", Item.msgID 1].filter (fun i => i.asMsgID.isSome)) =
      ⟨[Item.msgData ⟨1, true⟩], [1], []⟩ := by
  decide

/-! ## Results on SelectMessages -/

theorem take_set_succ (l : List User) (k : Nat) (u : User) (hk : k < l.length) :
    (l.set k u).take (k + 1) = l.take k ++ [u] := by
  induction l generalizing k with
  | nil => simp at hk
  | cons a l ih =>
    cases k with
    | zero => simp
    | succ k =>
      simp only [List.length_cons, Nat.add_lt_add_iff_right] at hk
      simp [ih k hk]

theorem read_set_ne (h : Heap) (i : Nat) (a : List User) (c : Slice) (hc : c.arr ≠ i) :
    Heap.read (h.set i a) c = Heap.read h c := by
  unfold Heap.read
  simp [List.getD_eq_getElem?_getD, List.getElem?_set_ne (Ne.symm hc)]

theorem read_set_eq (h : Heap) (i n cap : Nat) (a : List User) (hi : i < h.length) :
    Heap.read (h.set i a) ⟨i, n, cap⟩ = a.take n := by
  unfold Heap.read
  simp [List.getD_eq_getElem?_getD, List.getElem?_set_self, hi]

theorem read_append_lt (h e : Heap) (c : Slice) (hc : c.arr < h.length) :
    Heap.read (h ++ e) c = Heap.read h c := by
  unfold Heap.read
  simp [List.getD_eq_getElem?_getD, List.getElem?_append_left hc]

theorem read_append_new (h : Heap) (a : List User) (n cap : Nat) :
    Heap.read (h ++ [a]) ⟨h.length, n, cap⟩ = a.take n := by
  unfold Heap.read
  simp [List.getD_eq_getElem?_getD]

theorem KeepsClones.refl (h : Heap) : Heap.KeepsClones h h :=
  ⟨le_refl _, fun _ _ _ => rfl⟩

theorem KeepsClones.trans {h₁ h₂ h₃ : Heap} (a : Heap.KeepsClones h₁ h₂)
    (b : Heap.KeepsClones h₂ h₃) : Heap.KeepsClones h₁ h₃ :=
  ⟨le_trans a.1 b.1, fun c h0 hc => (b.2 c h0 (lt_of_lt_of_le hc a.1)).trans (a.2 c h0 hc)⟩

theorem keepsClones_set_zero (h : Heap) (a : List User) : Heap.KeepsClones h (h.set 0 a) :=
  ⟨by simp, fun c h0 _ => read_set_ne h 0 a c (Nat.pos_iff_ne_zero.mp h0)⟩

theorem keepsClones_append (h e : Heap) : Heap.KeepsClones h (h ++ e) :=
  ⟨by simp, fun c _ hc => read_append_lt h e c hc⟩

theorem step_mistyped (B : Nat) (st : SelectMessages.State) (x : Item) (hx : x.asUser = none) :
    SelectMessages.step B st x = st := by
  simp [SelectMessages.step, hx]

/-- `SelectMessages` drops the items that are not users and goes on. -/
theorem SelectMessages_drops_mistyped (B : Nat) (input : List Item) :
    SelectMessages B input = SelectMessages B (input.filter (fun x => x.asUser.isSome)) := by
  have hloop : SelectMessages.loop B input =
      SelectMessages.loop B (input.filter (fun x => x.asUser.isSome)) := by
    unfold SelectMessages.loop
    generalize (⟨(Heap.make [] B).1, (Heap.make [] B).2, []⟩ : SelectMessages.State) = st
    induction input generalizing st with
    | nil => rfl
    | cons x xs ih =>
      cases hx : x.asUser with
      | none =>
        rw [List.foldl_cons, step_mistyped B st x hx, ih]
        simp [List.filter_cons, hx]
      | some u =>
        rw [List.foldl_cons, ih]
        simp [List.filter_cons, hx]
  unfold SelectMessages
  rw [hloop]

theorem getD_zero_set_append (heap : Heap) (a : List User) (e : Heap) (h : 0 < heap.length) :
    (heap.set 0 a ++ e).getD 0 [] = a := by
  cases heap with
  | nil => simp at h
  | cons x xs => rfl

theorem step_user_eq (B : Nat) (heap : Heap) (len : Nat) (launched : List Slice) (u : User)
    (hlen : len < B) :
    SelectMessages.step B ⟨heap, ⟨0, len, B⟩, launched⟩ (Item.user u) =
      if len + 1 < B then
        ⟨heap.set 0 ((heap.getD 0 []).set len u), ⟨0, len + 1, B⟩, launched⟩
      else
        ⟨heap.set 0 ((heap.getD 0 []).set len u) ++
            [Heap.read (heap.set 0 ((heap.getD 0 []).set len u)) ⟨0, len + 1, B⟩],
          ⟨0, 0, B⟩,
          launched ++ [⟨(heap.set 0 ((heap.getD 0 []).set len u)).length, len + 1, len + 1⟩]⟩ := by
  simp only [SelectMessages.step, Item.asUser, Heap.append, Heap.clone, hlen, if_true]

theorem map_read_eq (h₁ h₂ : Heap) (launched : List Slice)
    (hl : ∀ c ∈ launched, 0 < c.arr ∧ c.arr < h₁.length) (hk : Heap.KeepsClones h₁ h₂) :
    launched.map h₂.read = launched.map h₁.read :=
  List.map_congr_left (fun c hc => hk.2 c (hl c hc).1 (hl c hc).2)

theorem step_user_inv (B : Nat) (st : SelectMessages.State) (users : List User) (u : User)
    (h : SelectMessages.Inv B st users) :
    SelectMessages.Inv B (SelectMessages.step B st (Item.user u)) (users ++ [u]) ∧
    Heap.KeepsClones st.heap (SelectMessages.step B st (Item.user u)).heap ∧
    ∃ later, (SelectMessages.step B st (Item.user u)).launched = st.launched ++ later := by
  obtain ⟨heap, ⟨arr, len, cap⟩, launched⟩ := st
  obtain ⟨h1, h2, h3, h4, h5, h6, h7, h8, h9⟩ := h
  simp only [SelectMessages.State.batches] at h1 h2 h3 h4 h5 h6 h7 h8 h9
  subst h1
  subst h2
  rw [step_user_eq cap heap len launched u h3]
  have hk1 : Heap.KeepsClones heap (heap.set 0 ((heap.getD 0 []).set len u)) :=
    keepsClones_set_zero heap _
  have hr1 : Heap.read (heap.set 0 ((heap.getD 0 []).set len u)) ⟨0, len + 1, cap⟩ =
      Heap.read heap ⟨0, len, cap⟩ ++ [u] := by
    rw [read_set_eq heap 0 (len + 1) cap _ h4, take_set_succ _ _ _ (by omega)]
    rfl
  split_ifs with hlt
  · refine ⟨⟨rfl, rfl, hlt, by simpa using h4, ?_, ?_, ?_, ?_, ?_⟩, hk1, [], by simp⟩
    · simp only [List.getD_eq_getElem?_getD, List.getElem?_set_self h4]
      simp
      simpa [List.getD_eq_getElem?_getD] using h5
    · intro c hc
      have := h6 c hc
      simpa using this
    · simp only [SelectMessages.State.batches]
      rw [map_read_eq heap _ launched h6 hk1, hr1, ← List.append_assoc, h7]
    · simp only [SelectMessages.State.batches]
      rw [map_read_eq heap _ launched h6 hk1]
      exact h8
    · rw [hr1]
      simp [h9]
  · have hk2 : Heap.KeepsClones heap (heap.set 0 ((heap.getD 0 []).set len u) ++
        [Heap.read (heap.set 0 ((heap.getD 0 []).set len u)) ⟨0, len + 1, cap⟩]) :=
      KeepsClones.trans hk1 (keepsClones_append _ _)
    have hr2 : Heap.read (heap.set 0 ((heap.getD 0 []).set len u) ++
        [Heap.read (heap.set 0 ((heap.getD 0 []).set len u)) ⟨0, len + 1, cap⟩])
        ⟨(heap.set 0 ((heap.getD 0 []).set len u)).length, len + 1, len + 1⟩ =
        Heap.read heap ⟨0, len, cap⟩ ++ [u] := by
      rw [read_append_new, hr1, List.take_of_length_le]
      simp [h9]
    refine ⟨⟨rfl, rfl, by show 0 < cap; omega, by simp, ?_, ?_, ?_, ?_, ?_⟩, hk2, [_], rfl⟩
    · show ((heap.set 0 ((heap.getD 0 []).set len u) ++ _).getD 0 []).length = cap
      rw [getD_zero_set_append _ _ _ h4, List.length_set]
      exact h5
    · intro c hc
      rcases List.mem_append.mp hc with hc | hc
      · have := h6 c hc
        exact ⟨this.1, by simp; omega⟩
      · rw [List.mem_singleton] at hc
        subst hc
        simp
        exact h4
    · simp only [SelectMessages.State.batches, List.map_append, List.map_cons, List.map_nil]
      rw [map_read_eq heap _ launched h6 hk2, hr2]
      have : Heap.read (heap.set 0 ((heap.getD 0 []).set len u) ++
          [Heap.read (heap.set 0 ((heap.getD 0 []).set len u)) ⟨0, len + 1, cap⟩])
          ⟨0, 0, cap⟩ = [] := by simp [Heap.read]
      rw [this, List.append_nil, List.flatten_append, ← h7]
      simp
    · simp only [SelectMessages.State.batches, List.map_append, List.map_cons, List.map_nil]
      rw [map_read_eq heap _ launched h6 hk2, hr2]
      intro b hb
      rcases List.mem_append.mp hb with hb | hb
      · exact h8 b hb
      · rw [List.mem_singleton] at hb
        subst hb
        simp [h9]
        omega
    · simp [Heap.read]

theorem usersOf_cons_user (u : User) (xs : List Item) :
    usersOf (Item.user u :: xs) = u :: usersOf xs := by
  simp [usersOf, List.filterMap_cons, Item.asUser]

theorem usersOf_cons_mistyped (x : Item) (xs : List Item) (hx : x.asUser = none) :
    usersOf (x :: xs) = usersOf xs := by
  simp [usersOf, List.filterMap_cons, hx]

theorem asUser_eq_some (x : Item) (u : User) (h : x.asUser = some u) : x = Item.user u := by
  cases x <;> simp [Item.asUser] at h
  rw [h]

theorem loop_inv_from (B : Nat) (input : List Item) (st : SelectMessages.State)
    (users : List User) (h : SelectMessages.Inv B st users) :
    SelectMessages.Inv B (input.foldl (SelectMessages.step B) st) (users ++ usersOf input) ∧
    Heap.KeepsClones st.heap (input.foldl (SelectMessages.step B) st).heap ∧
    ∃ later, (input.foldl (SelectMessages.step B) st).launched = st.launched ++ later := by
  induction input generalizing st users with
  | nil => exact ⟨by simpa [usersOf] using h, KeepsClones.refl _, [], by simp⟩
  | cons x xs ih =>
    cases hx : x.asUser with
    | none =>
      rw [List.foldl_cons, step_mistyped B st x hx, usersOf_cons_mistyped x xs hx]
      exact ih st users h
    | some u =>
      have hxu := asUser_eq_some x u hx
      subst hxu
      obtain ⟨hi, hk, l₁, hl₁⟩ := step_user_inv B st users u h
      obtain ⟨hi2, hk2, l₂, hl₂⟩ := ih _ _ hi
      rw [List.foldl_cons, usersOf_cons_user]
      refine ⟨by simpa using hi2, KeepsClones.trans hk hk2, l₁ ++ l₂, ?_⟩
      rw [hl₂, hl₁, List.append_assoc]

theorem init_inv (B : Nat) (hB : 1 ≤ B) :
    SelectMessages.Inv B ⟨(Heap.make [] B).1, (Heap.make [] B).2, []⟩ [] := by
  refine ⟨rfl, rfl, ?_, ?_, ?_, ?_, ?_, ?_, ?_⟩
  · show 0 < B
    omega
  · simp [Heap.make]
  · simp [Heap.make]
  · simp
  · simp [SelectMessages.State.batches, Heap.read, Heap.make]
  · simp [SelectMessages.State.batches]
  · simp [Heap.read, Heap.make]

theorem loop_inv (B : Nat) (hB : 1 ≤ B) (input : List Item) :
    SelectMessages.Inv B (SelectMessages.loop B input) (usersOf input) := by
  have := (loop_inv_from B input _ [] (init_inv B hB)).1
  simpa [SelectMessages.loop] using this

/-- The batches of the calls: the full batches launched in the loop, then the
content of `usersBatch` if it is not empty. -/
theorem calls_eq (B : Nat) (hB : 1 ≤ B) (input : List Item) :
    SelectMessages.handed B input =
      (SelectMessages.loop B input).batches ++
        (if (SelectMessages.loop B input).usersBatch.len = 0 then []
         else [(SelectMessages.loop B input).heap.read (SelectMessages.loop B input).usersBatch]) := by
  obtain ⟨h1, h2, h3, h4, h5, h6, h7, h8, h9⟩ := loop_inv B hB input
  unfold SelectMessages.handed SelectMessages
  by_cases hz : (SelectMessages.loop B input).usersBatch.len = 0
  · simp [hz]
  · simp only [ne_eq, hz, not_false_eq_true, if_true, if_false, SelectMessages.State.batches,
      Heap.clone, List.map_append, List.map_cons, List.map_nil]
    rw [map_read_eq _ _ _ h6 (keepsClones_append _ _), read_append_new, List.take_of_length_le]
    rw [h9]

theorem flatten_length_of_all (B : Nat) (done : List (List User))
    (h : ∀ b ∈ done, b.length = B) : done.flatten.length = B * done.length := by
  induction done with
  | nil => simp
  | cons b bs ih =>
    have hb := h b (List.mem_cons_self _ _)
    have := ih (fun c hc => h c (List.mem_cons_of_mem _ hc))
    simp only [List.flatten_cons, List.length_append, List.length_cons, hb, this]
    ring

/-- The shape of the calls: `done` full batches, then the remainder `acc` if
there is one. -/
theorem calls_shape (B : Nat) (hB : 1 ≤ B) (input : List Item) :
    ∃ (done : List (List User)) (acc : List User),
      SelectMessages.handed B input = done ++ (if acc.length = 0 then [] else [acc]) ∧
      done.flatten ++ acc = usersOf input ∧
      (∀ b ∈ done, b.length = B) ∧ acc.length < B ∧
      done.length = (usersOf input).length / B ∧ acc.length = (usersOf input).length % B := by
  obtain ⟨h1, h2, h3, h4, h5, h6, h7, h8, h9⟩ := loop_inv B hB input
  refine ⟨(SelectMessages.loop B input).batches,
    (SelectMessages.loop B input).heap.read (SelectMessages.loop B input).usersBatch,
    ?_, h7, h8, by rw [h9]; exact h3, ?_, ?_⟩
  · rw [calls_eq B hB input, h9]
  · rw [← h7, List.length_append, flatten_length_of_all B _ h8, h9, Nat.add_comm,
      Nat.add_mul_div_left _ _ (by omega), Nat.div_eq_of_lt h3, Nat.zero_add]
  · rw [← h7, List.length_append, flatten_length_of_all B _ h8, h9, Nat.add_comm,
      Nat.add_mul_mod_self_left, Nat.mod_eq_of_lt h3]

/-- Each task calls `GetMessages` once, with its batch, whatever the call
returns. -/
theorem calls_eq_handed (GetMessages : List User → Except String (List MsgID)) (B : Nat)
    (input : List Item) :
    SelectMessages.calls GetMessages B input = SelectMessages.handed B input := by
  unfold SelectMessages.calls
  generalize SelectMessages.handed B input = bs
  induction bs with
  | nil => rfl
  | cons b bs ih =>
    rw [List.map_cons, List.flatten_cons, ih]
    unfold getMessagesByBatch
    cases GetMessages b <;> rfl

theorem ceil_div_eq (U B : Nat) (hB : 1 ≤ B) :
    (U + B - 1) / B = U / B + (if U % B = 0 then 0 else 1) := by
  have hU := Nat.div_add_mod U B
  have hr := Nat.mod_lt U (show 0 < B by omega)
  have h1 : U + B - 1 = B * (U / B) + (U % B + B - 1) := by omega
  rw [h1, Nat.mul_add_div (by omega)]
  congr 1
  split_ifs with hz
  · rw [hz]
    exact Nat.div_eq_of_lt (by omega)
  · exact Nat.div_eq_of_lt_le (by omega) (by omega)

/-- C4: for a batch size `B` of at least 1 and a stream with `U` users,
`GetMessages` is called `ceil(U/B)` times; the sizes of the batches, in launch
order, are `U / B` times `B`, then `U mod B` if that is not 0: every call but
the last has `B` users, the last has `U mod B` users, or `B` when `B` divides
`U`, and there is no call when `U` is 0. -/
theorem SelectMessages_call_count (GetMessages : List User → Except String (List MsgID))
    (B : Nat) (hB : 1 ≤ B) (input : List Item) :
    (SelectMessages.calls GetMessages B input).length = ((usersOf input).length + B - 1) / B ∧
    (SelectMessages.calls GetMessages B input).map List.length =
      List.replicate ((usersOf input).length / B) B ++
        (if (usersOf input).length % B = 0 then [] else [(usersOf input).length % B]) ∧
    (∀ i b, i + 1 < (SelectMessages.calls GetMessages B input).length →
      (SelectMessages.calls GetMessages B input).get? i = some b → b.length = B) ∧
    (∀ b, (SelectMessages.calls GetMessages B input).getLast? = some b →
      b.length = if (usersOf input).length % B = 0 then B else (usersOf input).length % B) ∧
    ((usersOf input).length = 0 → SelectMessages.calls GetMessages B input = []) := by
  rw [calls_eq_handed]
  obtain ⟨done, acc, hc, hf, hall, hlt, hq, hr⟩ := calls_shape B hB input
  rw [hc, ← hq, ← hr]
  have hlen : (done ++ if acc.length = 0 then [] else [acc]).length =
      done.length + (if acc.length = 0 then 0 else 1) := by
    split_ifs <;> simp
  refine ⟨?_, ?_, ?_, ?_, ?_⟩
  · rw [hlen, ceil_div_eq _ B hB, ← hq, ← hr]
  · have : done.map List.length = List.replicate done.length B :=
      List.eq_replicate_iff.mpr ⟨by simp, fun n hn => by
        obtain ⟨b, hb, rfl⟩ := List.mem_map.mp hn
        exact hall b hb⟩
    rw [List.map_append, this]
    split_ifs <;> simp
  · intro i b hi hb
    rw [hlen] at hi
    have hi2 : i < done.length := by
      split_ifs at hi <;> omega
    rw [List.get?_eq_getElem?, List.getElem?_append_left hi2] at hb
    exact hall b (List.getElem?_mem hb)
  · intro b hb
    by_cases hz : acc.length = 0
    · simp only [hz, if_true, List.append_nil] at hb ⊢
      exact hall b (List.mem_of_getLast?_eq_some hb)
    · simp only [hz, if_false, List.getLast?_concat] at hb ⊢
      rw [← Option.some.inj hb]
  · intro hU
    have h0 : done.length = 0 := by rw [hq, hU, Nat.zero_div]
    have h1 : acc.length = 0 := by rw [hr, hU, Nat.zero_mod]
    rw [List.length_eq_zero.mp h0, h1]
    simp

theorem SelectMessages_call_count_witness :
    1 ≤ 2 ∧
    (SelectMessages.calls (fun us => Except.ok (us.map User.Rest)) 2
      [Item.user ⟨"a", 0⟩, Item.user ⟨"b", 1⟩, Item.str "x", Item.user ⟨"c", 2⟩,
        Item.user ⟨"d", 3⟩, Item.user ⟨"e", 4⟩]).length = (5 + 2 - 1) / 2 ∧
    (SelectMessages.calls (fun us => Except.ok (us.map User.Rest)) 2
      [Item.user ⟨"a", 0⟩, Item.user ⟨"b", 1⟩, Item.str "x", Item.user ⟨"c", 2⟩,
        Item.user ⟨"d", 3⟩, Item.user ⟨"e", 4⟩]).map List.length = [2, 2, 1] :=
  ⟨by decide,
    (SelectMessages_call_count (fun us => Except.ok (us.map User.Rest)) 2 (by decide)
      [Item.user ⟨"a", 0⟩, Item.user ⟨"b", 1⟩, Item.str "x", Item.user ⟨"c", 2⟩,
        Item.user ⟨"d", 3⟩, Item.user ⟨"e", 4⟩]).1,
    (SelectMessages_call_count (fun us => Except.ok (us.map User.Rest)) 2 (by decide)
      [Item.user ⟨"a", 0⟩, Item.user ⟨"b", 1⟩, Item.str "x", Item.user ⟨"c", 2⟩,
        Item.user ⟨"d", 3⟩, Item.user ⟨"e", 4⟩]).2.1⟩

theorem final_keepsClones (B : Nat) (input : List Item) :
    Heap.KeepsClones (SelectMessages.loop B input).heap (SelectMessages B input).heap ∧
    ∃ later, (SelectMessages B input).launched = (SelectMessages.loop B input).launched ++ later := by
  unfold SelectMessages
  by_cases hz : (SelectMessages.loop B input).usersBatch.len = 0
  · simp only [ne_eq, hz, not_true_eq_false, if_false]
    exact ⟨KeepsClones.refl _, [], by simp⟩
  · simp only [ne_eq, hz, not_false_eq_true, if_true, Heap.clone]
    exact ⟨keepsClones_append _ _, [_], rfl⟩

/-- C10: for a batch size `B` of at least 1, the batches handed to
`GetMessages`, in launch order and concatenated, are the users of the stream
in arrival order (items that are not users left out); every batch has at
least 1 and at most `B` users; and a batch launched after any part `pre` of
the stream is among the batches at the end and reads then as it read when
`pre` had just been processed, whatever was appended to `usersBatch` since. -/
theorem SelectMessages_batches_partition_users (GetMessages : List User → Except String (List MsgID))
    (B : Nat) (hB : 1 ≤ B) (input : List Item) :
    (SelectMessages.calls GetMessages B input).flatten = usersOf input ∧
    (∀ b ∈ SelectMessages.calls GetMessages B input, 1 ≤ b.length ∧ b.length ≤ B) ∧
    (∀ pre post : List Item, input = pre ++ post →
      (∃ later, (SelectMessages B input).launched =
        (SelectMessages.loop B pre).launched ++ later) ∧
      ∀ c ∈ (SelectMessages.loop B pre).launched,
        (SelectMessages B input).heap.read c = (SelectMessages.loop B pre).heap.read c) := by
  rw [calls_eq_handed]
  obtain ⟨done, acc, hc, hf, hall, hlt, -, -⟩ := calls_shape B hB input
  refine ⟨?_, ?_, ?_⟩
  · rw [hc, ← hf]
    split_ifs with hz
    · simp [List.length_eq_zero.mp hz]
    · simp
  · intro b hb
    rw [hc] at hb
    rcases List.mem_append.mp hb with hb | hb
    · have := hall b hb
      omega
    · split_ifs at hb with hz
      · simp at hb
      · rw [List.mem_singleton] at hb
        subst hb
        omega
  · intro pre post hin
    have hpre := loop_inv B hB pre
    have hloop : SelectMessages.loop B input =
        post.foldl (SelectMessages.step B) (SelectMessages.loop B pre) := by
      rw [hin, SelectMessages.loop, List.foldl_append]
      rfl
    obtain ⟨-, hk, l₁, hl₁⟩ := loop_inv_from B post _ _ hpre
    rw [← hloop] at hk hl₁
    obtain ⟨hk2, l₂, hl₂⟩ := final_keepsClones B input
    refine ⟨⟨l₁ ++ l₂, by rw [hl₂, hl₁, List.append_assoc]⟩, fun c hcm => ?_⟩
    obtain ⟨-, -, -, -, -, h6, -, -, -⟩ := hpre
    exact (KeepsClones.trans hk hk2).2 c (h6 c hcm).1 (h6 c hcm).2

/-- The array of `usersBatch` is written again after a launch: the slice
`usersBatch[:2]` itself, had it been handed to the task, would read "c", "b"
after the third user, while the clone still reads "a", "b". -/
theorem usersBatch_array_is_reused :
    (SelectMessages 2 [Item.user ⟨"a", 0⟩, Item.user ⟨"b", 1⟩, Item.user ⟨"c", 2⟩]).heap.read
        ⟨0, 2, 2⟩ = [⟨"c", 2⟩, ⟨"b", 1⟩] ∧
    (SelectMessages 2 [Item.user ⟨"a", 0⟩, Item.user ⟨"b", 1⟩, Item.user ⟨"c", 2⟩]).batches =
      [[⟨"a", 0⟩, ⟨"b", 1⟩], [⟨"c", 2⟩]] := by
  decide

theorem SelectMessages_batches_partition_users_witness :
    1 ≤ 2 ∧
    SelectMessages.calls (fun _ => Except.error "down") 2
      [Item.user ⟨"a", 0⟩, Item.user ⟨"b", 1⟩, Item.str "x", Item.user ⟨"c", 2⟩] =
      [[⟨"a", 0⟩, ⟨"b", 1⟩], [⟨"c", 2⟩]] ∧
    (SelectMessages.calls (fun _ => Except.error "down") 2
      [Item.user ⟨"a", 0⟩, Item.user ⟨"b", 1⟩, Item.str "x", Item.user ⟨"c", 2⟩]).flatten =
      usersOf [Item.user ⟨"a", 0⟩, Item.user ⟨"b", 1⟩, Item.str "x", Item.user ⟨"c", 2⟩] :=
  ⟨by decide, by decide,
    (SelectMessages_batches_partition_users (fun _ => Except.error "down") 2 (by decide)
      [Item.user ⟨"a", 0⟩, Item.user ⟨"b", 1⟩, Item.str "x", Item.user ⟨"c", 2⟩]).1⟩

/-! ## Results on RunPipeline -/

theorem runnerInv_append (trace es : List PipeEvent) (i : Nat) (r : Runner)
    (h : RunnerInv trace i r) (hes : PipeEvent.close (i + 1) ∉ es) :
    RunnerInv (trace ++ es) i r := by
  obtain ⟨h1, h2, h3, h4, h5, h6, h7⟩ := h
  refine ⟨h1, h2, h3, ?_, ?_, ?_, ?_⟩
  · rw [List.count_append, List.count_eq_zero.mpr hes, Nat.add_zero]
    exact h4
  · exact fun hp => List.mem_append_left _ (h5 hp)
  · exact fun hp => (h6 hp).trans (List.sublist_append_left _ _)
  · exact fun hp => (h7 hp).trans (List.sublist_append_left _ _)

theorem init_pipeInv (n : Nat) : PipeInv n RunPipeline.init := by
  refine ⟨rfl, rfl, Nat.zero_le _, ?_, ?_, rfl, ?_, ?_⟩
  · intro i r h
    simp [RunPipeline.init] at h
  · intro c h
    simp [RunPipeline.init] at h
  · intro k h
    simp only [RunPipeline.init, MainPC.loop.injEq] at h
    rw [← h]
    exact ⟨rfl, by simp [RunPipeline.init]⟩
  · intro h
    simp [RunPipeline.init] at h

theorem mainStep_inv (n : Nat) (s t : PipeState) (h : PipeInv n s)
    (hstep : RunPipeline.mainStep n s = some t) : PipeInv n t := by
  obtain ⟨chans, inCh, wg, main, runners, trace⟩ := s
  obtain ⟨h1, h2, h3, h4, h5, h6, h7, h8⟩ := h
  simp only at h1 h2 h3 h4 h5 h6 h7 h8
  cases main with
  | returned => simp [RunPipeline.mainStep] at hstep
  | loop k =>
    obtain ⟨hk, hnw⟩ := h7 k rfl
    subst hk
    by_cases hlt : runners.length < n
    · simp only [RunPipeline.mainStep, hlt, if_true, Option.some.injEq] at hstep
      subst hstep
      subst h1 h2
      refine ⟨by simp, by simp, by simpa using hlt, ?_, ?_, ?_, ?_, ?_⟩
      · intro i r hr
        rcases Nat.lt_or_ge i runners.length with hi | hi
        · rw [List.getElem?_append_left hi] at hr
          exact runnerInv_append _ _ i r (h4 i r hr) (by simp)
        · rw [List.getElem?_append_right hi] at hr
          have hi0 : i - runners.length = 0 := by
            by_contra hne
            obtain ⟨m, hm⟩ := Nat.exists_eq_succ_of_ne_zero hne
            rw [hm] at hr
            simp at hr
          rw [hi0] at hr
          simp only [List.getElem?_cons_zero, Option.some.injEq] at hr
          have hie : i = runners.length := by omega
          subst hr
          subst hie
          have hnc : PipeEvent.close (runners.length + 1) ∉ trace := fun hc => by
            have := (h5 _ hc).2
            omega
          refine ⟨rfl, rfl, rfl, ?_, ?_, ?_, ?_⟩
          · simp [List.count_eq_zero.mpr hnc]
          · intro hp; simp at hp
          · intro hp; simp at hp
          · intro hp; simp at hp
      · intro c hc
        have : PipeEvent.close c ∈ trace := by simpa using hc
        have := h5 c this
        simp only [List.length_append, List.length_singleton]
        omega
      · simp [h6]
      · intro k hk
        simp only [MainPC.loop.injEq] at hk
        exact ⟨by simp [← hk], by simpa using hnw⟩
      · intro hp; simp at hp
    · have hn : runners.length = n := by omega
      by_cases hw : wg = 0
      · simp only [RunPipeline.mainStep, hlt, if_false, hw, if_true, Option.some.injEq] at hstep
        subst hstep
        subst hw
        have hdone : ∀ r ∈ runners, r.pc = RunnerPC.done := by
          intro r hr
          have := (List.countP_eq_zero.mp h6.symm) r hr
          simpa using this
        refine ⟨h1, h2, h3, ?_, ?_, h6, ?_, ?_⟩
        · intro i r hr
          exact runnerInv_append _ _ i r (h4 i r hr) (by simp)
        · intro c hc
          exact h5 c (by simpa using hc)
        · intro k hk; simp at hk
        · intro _
          refine ⟨hn, hdone, trace, rfl, hnw, fun i hi => ?_⟩
          have hi2 : i < runners.length := by omega
          have hr : runners[i]? = some runners[i] := List.getElem?_eq_getElem hi2
          have hinv := h4 i _ hr
          exact hinv.2.2.2.2.2.2 (hdone _ (List.getElem_mem hi2))
      · simp [RunPipeline.mainStep, hlt, hw] at hstep

/-- A step of goroutine `i` that adds the event `e` keeps the invariant when
the goroutine was not done and its new program point fits the events. -/
theorem set_runner_inv (n chans inCh wg wg₂ : Nat) (main : MainPC) (runners : List Runner)
    (trace : List PipeEvent) (i : Nat) (r r₂ : Runner) (e : PipeEvent)
    (h : PipeInv n ⟨chans, inCh, wg, main, runners, trace⟩)
    (hr : runners[i]? = some r) (hnd : r.pc ≠ RunnerPC.done)
    (hwg : wg₂ = wg - (if r₂.pc = RunnerPC.done then 1 else 0))
    (hr₂ : RunnerInv (trace ++ [e]) i r₂)
    (he : ∀ c, e = PipeEvent.close c → c = i + 1) (hew : e ≠ PipeEvent.waitReturn) :
    PipeInv n ⟨chans, inCh, wg₂, main, runners.set i r₂, trace ++ [e]⟩ := by
  obtain ⟨h1, h2, h3, h4, h5, h6, h7, h8⟩ := h
  simp only at h1 h2 h3 h4 h5 h6 h7 h8
  obtain ⟨hi, hri⟩ := List.getElem?_eq_some.mp hr
  refine ⟨by simpa using h1, by simpa using h2, by simpa using h3, ?_, ?_, ?_, ?_, ?_⟩
  · intro j rj hj
    simp only at hj
    rw [List.getElem?_set] at hj
    by_cases hij : i = j
    · rw [if_pos hij, if_pos hi] at hj
      rw [← Option.some.inj hj, ← hij]
      exact hr₂
    · rw [if_neg hij] at hj
      refine runnerInv_append _ _ j rj (h4 j rj hj) ?_
      intro hc
      rw [List.mem_singleton] at hc
      have := he _ hc.symm
      omega
  · intro c hc
    simp only [List.length_set]
    rcases List.mem_append.mp hc with hc | hc
    · exact h5 c hc
    · rw [List.mem_singleton] at hc
      have := he _ hc.symm
      omega
  · simp only
    rw [hwg, h6, List.countP_set _ _ _ _ hi, hri]
    have hp : (r.pc != RunnerPC.done) = true := by simpa using hnd
    have hge : (if (runners[i].pc != RunnerPC.done) = true then 1 else 0) ≤
        runners.countP (fun r => r.pc != RunnerPC.done) :=
      List.boole_getElem_le_countP (fun r => r.pc != RunnerPC.done) runners i hi
    rw [hri, hp] at hge
    simp only [if_true] at hge
    simp only [hp, if_true]
    by_cases hd : r₂.pc = RunnerPC.done
    · simp [hd]
    · have hp2 : (r₂.pc != RunnerPC.done) = true := by simpa using hd
      simp only [hd, if_false, hp2, if_true]
      omega
  · intro k hk
    simp only [List.length_set]
    refine ⟨(h7 k hk).1, ?_⟩
    intro hc
    rcases List.mem_append.mp hc with hc | hc
    · exact (h7 k hk).2 hc
    · exact hew (List.mem_singleton.mp hc).symm
  · intro hm
    exact absurd ((h8 hm).2.1 r (List.getElem?_mem hr)) hnd

theorem stageStep_inv (n i : Nat) (s t : PipeState) (h : PipeInv n s)
    (hstep : RunPipeline.stageStep i s = some t) : PipeInv n t := by
  obtain ⟨chans, inCh, wg, main, runners, trace⟩ := s
  unfold RunPipeline.stageStep at hstep
  simp only at hstep
  cases hr : runners[i]? with
  | none => simp [hr] at hstep
  | some r =>
    obtain ⟨ci, ic, oc, pc⟩ := r
    obtain ⟨e1, e2, e3, e4, e5, e6, e7⟩ := h.2.2.2.1 i _ hr
    simp only at e1 e2 e3 e4 e5 e6 e7
    cases pc with
    | running =>
      simp only [hr, Option.some.injEq] at hstep
      subst hstep
      subst e1
      refine set_runner_inv n chans inCh wg wg main runners trace ci _ _ _ h hr (by simp)
        (by simp) ?_ (by simp) (by simp)
      refine ⟨rfl, e2, e3, ?_, ?_, ?_, ?_⟩
      · simpa using e4
      · intro _; simp
      · intro hp; simp at hp
      · intro hp; simp at hp
    | returned => simp [hr] at hstep
    | closed => simp [hr] at hstep
    | done => simp [hr] at hstep

theorem runnerStep_inv (n i : Nat) (s t : PipeState) (h : PipeInv n s)
    (hstep : RunPipeline.runnerStep i s = some t) : PipeInv n t := by
  obtain ⟨chans, inCh, wg, main, runners, trace⟩ := s
  unfold RunPipeline.runnerStep at hstep
  simp only at hstep
  cases hr : runners[i]? with
  | none => simp [hr] at hstep
  | some r =>
    obtain ⟨ci, ic, oc, pc⟩ := r
    obtain ⟨e1, e2, e3, e4, e5, e6, e7⟩ := h.2.2.2.1 i _ hr
    simp only at e1 e2 e3 e4 e5 e6 e7
    cases pc with
    | running => simp [hr] at hstep
    | returned =>
      simp only [hr, Option.some.injEq] at hstep
      subst hstep
      subst e1
      subst e3
      refine set_runner_inv n chans inCh wg wg main runners trace ci _ _ _ h hr (by simp)
        (by simp) ?_ (by simp) (by simp)
      refine ⟨rfl, e2, rfl, ?_, ?_, ?_, ?_⟩
      · simp only [List.count_append, List.count_singleton_self]
        simpa using e4
      · intro hp; simp at hp
      · intro _
        exact List.Sublist.append (List.singleton_sublist.mpr (e5 rfl)) (List.Sublist.refl _)
      · intro hp; simp at hp
    | closed =>
      simp only [hr, Option.some.injEq] at hstep
      subst hstep
      subst e1
      subst e3
      refine set_runner_inv n chans inCh wg (wg - 1) main runners trace ci _ _ _ h hr (by simp)
        (by simp) ?_ (by simp) (by simp)
      refine ⟨rfl, e2, rfl, ?_, ?_, ?_, ?_⟩
      · simp only [List.count_append]
        simpa using e4
      · intro hp; simp at hp
      · intro hp; simp at hp
      · intro _
        exact List.Sublist.append (e6 rfl) (List.Sublist.refl _)
    | done => simp [hr] at hstep

theorem step_pipeInv (n : Nat) (s t : PipeState) (a : Action) (h : PipeInv n s)
    (hstep : RunPipeline.step n s a = some t) : PipeInv n t := by
  cases a with
  | main => exact mainStep_inv n s t h hstep
  | stage i => exact stageStep_inv n i s t h hstep
  | runner i => exact runnerStep_inv n i s t h hstep

theorem execFrom_pipeInv (n : Nat) (schedule : List Action) (s t : PipeState)
    (h : PipeInv n s) (hexec : RunPipeline.execFrom n s schedule = some t) : PipeInv n t := by
  induction schedule generalizing s with
  | nil =>
    simp only [RunPipeline.execFrom, Option.some.injEq] at hexec
    rw [← hexec]
    exact h
  | cons a as ih =>
    simp only [RunPipeline.execFrom] at hexec
    cases hs : RunPipeline.step n s a with
    | none => simp [hs] at hexec
    | some u =>
      rw [hs] at hexec
      exact ih u (step_pipeInv n s u a h hs) hexec

theorem RunPipeline_pipeInv (n : Nat) (schedule : List Action) (s : PipeState)
    (h : RunPipeline n schedule = some s) : PipeInv n s :=
  execFrom_pipeInv n schedule _ s (init_pipeInv n) h

theorem execFrom_append (n : Nat) (s : PipeState) (as bs : List Action) :
    RunPipeline.execFrom n s (as ++ bs) =
      (RunPipeline.execFrom n s as).bind (fun t => RunPipeline.execFrom n t bs) := by
  induction as generalizing s with
  | nil => rfl
  | cons a as ih =>
    simp only [List.cons_append, RunPipeline.execFrom]
    cases RunPipeline.step n s a with
    | none => rfl
    | some t => exact ih t

/-- The loop of `RunPipeline` can always run to its end: `k` iterations
launch `k` goroutines, whatever the stage functions do. -/
theorem launch_all_stages (n k : Nat) (hk : k ≤ n) :
    ∃ s, RunPipeline n (List.replicate k Action.main) = some s ∧
      s.main = MainPC.loop k ∧ s.runners.length = k ∧
      ∀ r ∈ s.runners, r.pc = RunnerPC.running := by
  induction k with
  | zero => exact ⟨RunPipeline.init, rfl, rfl, rfl, by simp [RunPipeline.init]⟩
  | succ k ih =>
    obtain ⟨s, hs, hm, hl, hrun⟩ := ih (by omega)
    obtain ⟨chans, inCh, wg, main, runners, trace⟩ := s
    simp only at hm hl hrun
    subst hm
    refine ⟨⟨chans + 1, chans, wg + 1, MainPC.loop (k + 1),
        runners ++ [⟨k, inCh, chans, RunnerPC.running⟩],
        trace ++ [PipeEvent.make chans, PipeEvent.go k inCh chans]⟩, ?_, ?_, ?_, ?_⟩
    · unfold RunPipeline at hs ⊢
      rw [List.replicate_succ', execFrom_append, hs]
      have hlt : k < n := by omega
      simp [RunPipeline.execFrom, RunPipeline.step, RunPipeline.mainStep, hlt]
    · rfl
    · simp [hl]
    · intro r hr
      rcases List.mem_append.mp hr with hr | hr
      · exact hrun r hr
      · rw [List.mem_singleton.mp hr]

/-- A stage that is running can return and its goroutine can then make its
two deferred calls; nothing else changes. -/
theorem turn_of_stage (n i : Nat) (s : PipeState) (r : Runner) (hr : s.runners[i]? = some r)
    (hpc : r.pc = RunnerPC.running) :
    ∃ t, RunPipeline.execFrom n s [Action.stage i, Action.runner i, Action.runner i] = some t ∧
      t.main = s.main ∧
      t.runners = s.runners.set i ⟨r.commandIdx, r.inCh, r.outCh, RunnerPC.done⟩ := by
  obtain ⟨chans, inCh, wg, main, runners, trace⟩ := s
  obtain ⟨ci, ic, oc, pc⟩ := r
  simp only at hr hpc
  subst hpc
  have hi : i < runners.length := (List.getElem?_eq_some.mp hr).1
  refine ⟨⟨chans, inCh, wg - 1, main, runners.set i ⟨ci, ic, oc, RunnerPC.done⟩,
    trace ++ [PipeEvent.stageReturn ci] ++ [PipeEvent.close oc] ++ [PipeEvent.done ci]⟩,
    ?_, rfl, rfl⟩
  simp [RunPipeline.execFrom, RunPipeline.step, RunPipeline.stageStep, RunPipeline.runnerStep,
    hr, hi, List.getElem?_set_self]

/-- Under the schedule `RunPipeline.inTurn`, after the launches the first `i`
stages can finish one after the other. -/
theorem turns_of_stages (n i : Nat) (hi : i ≤ n) :
    ∃ s, RunPipeline n (List.replicate n Action.main ++
        ((List.range i).map
          (fun j => [Action.stage j, Action.runner j, Action.runner j])).flatten) = some s ∧
      s.main = MainPC.loop n ∧ s.runners.length = n ∧
      ∀ j r, s.runners[j]? = some r →
        r.pc = if j < i then RunnerPC.done else RunnerPC.running := by
  induction i with
  | zero =>
    obtain ⟨s, hs, hm, hl, hrun⟩ := launch_all_stages n n (le_refl n)
    refine ⟨s, by simpa using hs, hm, hl, fun j r hr => ?_⟩
    simpa using hrun r (List.getElem?_mem hr)
  | succ i ih =>
    obtain ⟨s, hs, hm, hl, hpc⟩ := ih (by omega)
    have hlt : i < s.runners.length := by omega
    have hr : s.runners[i]? = some s.runners[i] := List.getElem?_eq_getElem hlt
    have hrun : s.runners[i].pc = RunnerPC.running := by
      have := hpc i _ hr
      simpa using this
    obtain ⟨t, ht, htm, htr⟩ := turn_of_stage n i s _ hr hrun
    refine ⟨t, ?_, htm.trans hm, by rw [htr, List.length_set]; exact hl, fun j r hj => ?_⟩
    · unfold RunPipeline at hs ⊢
      rw [List.range_succ, List.map_append, List.flatten_append, ← List.append_assoc,
        execFrom_append, hs]
      simpa using ht
    · rw [htr, List.getElem?_set] at hj
      by_cases hij : i = j
      · rw [if_pos hij, if_pos hlt] at hj
        rw [← Option.some.inj hj, ← hij]
        simp
      · rw [if_neg hij] at hj
        rw [hpc j r hj]
        by_cases hji : j < i
        · rw [if_pos hji, if_pos (by omega)]
        · rw [if_neg hji, if_neg (by omega)]

/-- For every number of stages there is a complete run: when every stage
function returns, `RunPipeline` can return. -/
theorem RunPipeline_inTurn_returns (n : Nat) :
    ∃ s, RunPipeline n (RunPipeline.inTurn n) = some s ∧ s.main = MainPC.returned := by
  obtain ⟨s, hs, hm, hl, hpc⟩ := turns_of_stages n n (le_refl n)
  obtain ⟨-, -, -, -, -, h6, -, -⟩ := RunPipeline_pipeInv n _ s hs
  have hwg : s.wg = 0 := by
    rw [h6, List.countP_eq_zero]
    intro r hr
    obtain ⟨j, hj⟩ := List.mem_iff_getElem?.mp hr
    have hjl : j < s.runners.length := (List.getElem?_eq_some.mp hj).1
    have := hpc j r hj
    rw [if_pos (by omega)] at this
    simp [this]
  obtain ⟨chans, inCh, wg, main, runners, trace⟩ := s
  simp only at hm hwg
  subst hm
  subst hwg
  refine ⟨⟨chans, inCh, 0, MainPC.returned, runners, trace ++ [PipeEvent.waitReturn]⟩, ?_, rfl⟩
  unfold RunPipeline RunPipeline.inTurn at *
  rw [execFrom_append, hs]
  simp [RunPipeline.execFrom, RunPipeline.step, RunPipeline.mainStep]

/-- The claim C8 as stated fails: with one stage function a complete run has
made two queues, not one. -/
theorem RunPipeline_one_stage_makes_two_queues :
    (RunPipeline 1 (RunPipeline.inTurn 1)).map (fun s => (s.main, s.chans)) =
      some (MainPC.returned, 2) ∧
    (RunPipeline 1 (RunPipeline.inTurn 1)).map PipeState.chans ≠ some 1 := by
  decide

/-- C8, amended: `RunPipeline` with `n` stage functions always gets to launch
all `n` stages; at every moment it has made one queue more than it has
launched stages, hence `n + 1` queues once all are launched (the input queue
of the first stage, `n - 1` queues between stages, the output queue of the
last stage); stage `i` is bound to queue `i` as input and queue `i + 1` as
output, so the output queue of a stage is the input queue of the next. -/
theorem RunPipeline_queues_chain (n : Nat) :
    (∃ s, RunPipeline n (List.replicate n Action.main) = some s ∧ s.runners.length = n) ∧
    ∀ (schedule : List Action) (s : PipeState), RunPipeline n schedule = some s →
      s.chans = s.runners.length + 1 ∧ s.runners.length ≤ n ∧
      (s.main = MainPC.returned → s.runners.length = n) ∧
      (s.runners.length = n → s.chans = n + 1) ∧
      (∀ i r, s.runners[i]? = some r → r.commandIdx = i ∧ r.inCh = i ∧ r.outCh = i + 1) ∧
      (∀ i r r₂, s.runners[i]? = some r → s.runners[i + 1]? = some r₂ → r.outCh = r₂.inCh) := by
  constructor
  · obtain ⟨s, hs, -, hl, -⟩ := launch_all_stages n n (le_refl n)
    exact ⟨s, hs, hl⟩
  · intro schedule s h
    obtain ⟨h1, h2, h3, h4, h5, h6, h7, h8⟩ := RunPipeline_pipeInv n schedule s h
    refine ⟨h1, h3, fun hm => (h8 hm).1, fun hl => by rw [h1, hl], ?_, ?_⟩
    · intro i r hr
      obtain ⟨e1, e2, e3, -⟩ := h4 i r hr
      exact ⟨e1, e2, e3⟩
    · intro i r r₂ hr hr₂
      obtain ⟨-, -, e3, -⟩ := h4 i r hr
      obtain ⟨-, e2, -⟩ := h4 (i + 1) r₂ hr₂
      rw [e3, e2]

theorem RunPipeline_queues_chain_witness :
    RunPipeline 2 (RunPipeline.inTurn 2) = some RunPipeline.twoStagesDone ∧
    RunPipeline.twoStagesDone.runners.length = 2 ∧
    RunPipeline.twoStagesDone.chans = 2 + 1 :=
  ⟨by decide, by decide,
    ((RunPipeline_queues_chain 2).2 (RunPipeline.inTurn 2) RunPipeline.twoStagesDone
      (by decide)).2.2.2.1 (by decide)⟩

/-- C9: for every number of stages there is a run in which all stage
functions return and `RunPipeline` returns.  In every run of `RunPipeline`, no
queue is closed twice; a queue that is closed is the output queue of a
launched stage, never queue 0 (the input of the first stage), and the stage
function of that stage returned before the close; and when `RunPipeline` has
returned, its return is the last event, and before it every stage function
returned, then the output queue of that stage was closed, exactly once, then
its goroutine called `Done`. -/
theorem RunPipeline_closing_discipline (n : Nat) :
    (∃ s, RunPipeline n (RunPipeline.inTurn n) = some s ∧ s.main = MainPC.returned) ∧
    ∀ (schedule : List Action) (s : PipeState), RunPipeline n schedule = some s →
    (∀ c, s.trace.count (PipeEvent.close c) ≤ 1) ∧
    (∀ c, PipeEvent.close c ∈ s.trace →
      1 ≤ c ∧ c ≤ n ∧ (∃ pc, s.runners[c - 1]? = some ⟨c - 1, c - 1, c, pc⟩) ∧
      List.Sublist [PipeEvent.stageReturn (c - 1), PipeEvent.close c] s.trace) ∧
    (s.main = MainPC.returned →
      ∃ t, s.trace = t ++ [PipeEvent.waitReturn] ∧ PipeEvent.waitReturn ∉ t ∧
        ∀ i, i < n →
          s.runners[i]? = some ⟨i, i, i + 1, RunnerPC.done⟩ ∧
          t.count (PipeEvent.close (i + 1)) = 1 ∧
          List.Sublist [PipeEvent.stageReturn i, PipeEvent.close (i + 1), PipeEvent.done i] t) := by
  refine ⟨RunPipeline_inTurn_returns n, fun schedule s h => ?_⟩
  obtain ⟨h1, h2, h3, h4, h5, h6, h7, h8⟩ := RunPipeline_pipeInv n schedule s h
  have hclosed : ∀ c, PipeEvent.close c ∈ s.trace →
      ∃ r, s.runners[c - 1]? = some r ∧ RunnerInv s.trace (c - 1) r ∧ c - 1 + 1 = c := by
    intro c hc
    obtain ⟨hc1, hc2⟩ := h5 c hc
    have hlt : c - 1 < s.runners.length := by omega
    exact ⟨_, List.getElem?_eq_getElem hlt, h4 _ _ (List.getElem?_eq_getElem hlt), by omega⟩
  refine ⟨?_, ?_, ?_⟩
  · intro c
    by_cases hc : PipeEvent.close c ∈ s.trace
    · obtain ⟨r, -, ⟨-, -, -, e4, -⟩, hcc⟩ := hclosed c hc
      rw [hcc] at e4
      rw [e4]
      split_ifs <;> omega
    · rw [List.count_eq_zero.mpr hc]
      omega
  · intro c hc
    obtain ⟨hc1, hc2⟩ := h5 c hc
    obtain ⟨r, hr, ⟨e1, e2, e3, e4, e5, e6, e7⟩, hcc⟩ := hclosed c hc
    rw [hcc] at e3 e4 e6 e7
    refine ⟨hc1, by omega, ⟨r.pc, ?_⟩, ?_⟩
    · rw [hr]
      obtain ⟨ci, ic, oc, pc⟩ := r
      simp only at e1 e2 e3
      rw [e1, e2, e3]
    · have hpos : 0 < s.trace.count (PipeEvent.close c) := List.count_pos_iff.mpr hc
      rw [e4] at hpos
      obtain ⟨ci, ic, oc, pc⟩ := r
      cases pc with
      | running => simp at hpos
      | returned => simp at hpos
      | closed => exact e6 rfl
      | done =>
        refine List.Sublist.trans ?_ (e7 rfl)
        exact List.Sublist.cons₂ _ (List.Sublist.cons₂ _ (List.nil_sublist _))
  · intro hm
    obtain ⟨hl, hdone, t, ht, hnt, hsub⟩ := h8 hm
    refine ⟨t, ht, hnt, fun i hi => ?_⟩
    have hlt : i < s.runners.length := by omega
    have hr : s.runners[i]? = some s.runners[i] := List.getElem?_eq_getElem hlt
    obtain ⟨e1, e2, e3, e4, -⟩ := h4 i _ hr
    have hd := hdone _ (List.getElem_mem hlt)
    refine ⟨?_, ?_, hsub i hi⟩
    · rw [hr]
      generalize s.runners[i] = r at e1 e2 e3 hd
      obtain ⟨ci, ic, oc, pc⟩ := r
      simp only at e1 e2 e3 hd
      rw [e1, e2, e3, hd]
    · rw [ht, List.count_append, hd] at e4
      simpa using e4

theorem RunPipeline_closing_discipline_witness :
    RunPipeline 2 RunPipeline.twoStagesMixed = some
      ⟨3, 2, 0, MainPC.returned, [⟨0, 0, 1, RunnerPC.done⟩, ⟨1, 1, 2, RunnerPC.done⟩],
        [PipeEvent.make 0, PipeEvent.make 1, PipeEvent.go 0 0 1, PipeEvent.make 2,
          PipeEvent.go 1 1 2, PipeEvent.stageReturn 1, PipeEvent.close 2,
          PipeEvent.stageReturn 0, PipeEvent.done 1, PipeEvent.close 1, PipeEvent.done 0,
          PipeEvent.waitReturn]⟩ ∧
    ∀ c, List.count (PipeEvent.close c)
        [PipeEvent.make 0, PipeEvent.make 1, PipeEvent.go 0 0 1, PipeEvent.make 2,
          PipeEvent.go 1 1 2, PipeEvent.stageReturn 1, PipeEvent.close 2,
          PipeEvent.stageReturn 0, PipeEvent.done 1, PipeEvent.close 1, PipeEvent.done 0,
          PipeEvent.waitReturn] ≤ 1 :=
  ⟨by decide,
    ((RunPipeline_closing_discipline 2).2 RunPipeline.twoStagesMixed
      ⟨3, 2, 0, MainPC.returned, [⟨0, 0, 1, RunnerPC.done⟩, ⟨1, 1, 2, RunnerPC.done⟩],
        [PipeEvent.make 0, PipeEvent.make 1, PipeEvent.go 0 0 1, PipeEvent.make 2,
          PipeEvent.go 1 1 2, PipeEvent.stageReturn 1, PipeEvent.close 2,
          PipeEvent.stageReturn 0, PipeEvent.done 1, PipeEvent.close 1, PipeEvent.done 0,
          PipeEvent.waitReturn]⟩ (by decide)).1⟩

end Spamchecker
